import Mathlib

/-!
# Verification of the go-easy-config interpolation subsystem

Shallow embedding of the interpolation core of the `gymshark/go-easy-config`
repository: the `${NAME}` reference scanner and string substitution
(`FindVariableReferences`, `InterpolateString`), the tag parser
(`ParseConfigTag`, `ValidateVariableName`), the dependency graph
(`BuildDependencyGraph`, `DetectCycle`, `TopologicalSort`), the interpolation
engine (`Analyze`, `UpdateContext`, `convertToString`) and the staged chain
driver (`loadWithInterpolation`).  Go maps are modelled as association lists
or update functions; the fixed list order of an association list stands in
for Go's (unspecified) map iteration order.  Machine integers of the Go code
are modelled as `Int`/`Nat`; fallible Go functions returning `(T, error)`
are modelled as pairs with an `Option` error component or as `Except`.

Layout: all definitions first, then all theorems.  Recursive definitions
that Go expresses as loops or recursion over maps are written with an
explicit fuel parameter so they are structural (and hence evaluate inside
`decide`); in each case a `..._fuel` theorem shows the chosen fuel is
sufficient, so the fuel is a proof device, not a semantic change.
-/

/-! ## Definitions: the variable-reference scanner and `InterpolateString`

The source declares `variableReferenceRegex = \$\{([A-Za-z0-9_-]+)\}` and uses
it via `FindAllStringSubmatch` / `ReplaceAllStringFunc`.  Because the
character class excludes `$`, `{` and `}`, the regex engine's leftmost scan is
deterministic: at each position a match succeeds iff the text reads
`$`, `{`, a maximal nonempty run of name characters, `}`; otherwise the scan
advances one character.  `matchRef`/`scanParts` model that scan. -/

/-- The character class `[A-Za-z0-9_-]` of `variableReferenceRegex`. -/
def isVarChar (c : Char) : Bool :=
  ('A' ≤ c && c ≤ 'Z') || ('a' ≤ c && c ≤ 'z') || ('0' ≤ c && c ≤ '9') ||
    c == '_' || c == '-'

/-- Attempt to match `\$\{([A-Za-z0-9_-]+)\}` at the head of the character
list.  On success, returns the captured (nonempty) name and the remaining
characters after the closing brace. -/
def matchRef : List Char → Option (List Char × List Char)
  | [] => none
  | [_] => none
  | a :: b :: rest =>
    if a = '$' && b = '{' then
      match rest.takeWhile isVarChar, rest.dropWhile isVarChar with
      | [], _ => none
      | _ :: _, [] => none
      | x :: name, c :: after =>
        if c = '}' then some (x :: name, after) else none
    else none

/-- Fuel-indexed driver for `scanParts`.  The fuel only bounds the recursion
depth; `scanPartsF_fuel` shows any fuel of at least the text length gives the
same result, so `scanParts` (which passes the text length) never runs out. -/
def scanPartsF : Nat → List Char → List (Char ⊕ List Char)
  | 0, _ => []
  | _ + 1, [] => []
  | fuel + 1, c :: cs =>
    match matchRef (c :: cs) with
    | some (name, rest) => Sum.inr name :: scanPartsF fuel rest
    | none => Sum.inl c :: scanPartsF fuel cs

/-- One leftmost scan of the whole text, as performed by
`FindAllStringSubmatch` / `ReplaceAllStringFunc`: the text decomposes into
literal characters (`Sum.inl`) and matched references (`Sum.inr name`). -/
def scanParts (l : List Char) : List (Char ⊕ List Char) :=
  scanPartsF l.length l

/-- `FindVariableReferences` from the source: every `${NAME}` occurrence in
left-to-right order, duplicates included. -/
def findVariableReferences (s : String) : List String :=
  (scanParts s.data).filterMap fun p =>
    match p with
    | Sum.inr n => some (String.mk n)
    | Sum.inl _ => none

/-- The replacement pass of `InterpolateString`
(`variableReferenceRegex.ReplaceAllStringFunc` with the closure that looks a
name up in the context, keeps the original `${NAME}` text and records the
name in `missingVars` when absent).  Returns the replaced text and the list
of missing names in match order. -/
def replaceParts (context : String → Option String) :
    List (Char ⊕ List Char) → List Char × List String
  | [] => ([], [])
  | p :: ps =>
    let r := replaceParts context ps
    match p with
    | Sum.inl c => (c :: r.1, r.2)
    | Sum.inr name =>
      match context (String.mk name) with
      | some v => (v.data ++ r.1, r.2)
      | none => ('$' :: '{' :: (name ++ '}' :: r.1), String.mk name :: r.2)

/-- `InterpolateString` from the source, with the Go pair `(string, error)`
modelled as `String × Option (List String)`: the error component, when
present, carries the `missingVars` list of the
`undefined variables: %v` error. -/
def interpolateString (s : String) (context : String → Option String) :
    String × Option (List String) :=
  let r := replaceParts context (scanParts s.data)
  match r.2 with
  | [] => (String.mk r.1, none)
  | m => ("", some m)

/-- Fuel-indexed driver for `substituteRefs`; see `scanPartsF`. -/
def substituteRefsF (context : String → Option String) :
    Nat → List Char → List Char
  | 0, _ => []
  | _ + 1, [] => []
  | fuel + 1, c :: cs =>
    match matchRef (c :: cs) with
    | some (name, rest) =>
      (match context (String.mk name) with
       | some v => v.data
       | none => '$' :: '{' :: (name ++ ['}'])) ++
        substituteRefsF context fuel rest
    | none => c :: substituteRefsF context fuel cs

/-- Modelled from the spec: single-pass substitution that "replaces every
well-formed reference with its context value" (missing names are left as
their original `${NAME}` text).  Used to compare the success result of
`interpolateString` with the spec's description. -/
def substituteRefs (context : String → Option String) (l : List Char) :
    List Char :=
  substituteRefsF context l.length l

/-- The names a part list contributes to `findVariableReferences`. -/
def partNames (ps : List (Char ⊕ List Char)) : List String :=
  ps.filterMap fun p =>
    match p with
    | Sum.inr n => some (String.mk n)
    | Sum.inl _ => none

/-- The context `{"ENV": "prod"}` of the spec's round-trip example. -/
def ctxEnvProd : String → Option String :=
  fun n => if n = "ENV" then some "prod" else none

/-- A context whose value for `A` itself contains a well-formed reference;
used to exhibit the single-pass nature of `InterpolateString`. -/
def ctxAB : String → Option String :=
  fun n =>
    if n = "A" then some "$\x7bB\x7d" else if n = "B" then some "y" else none

/-! ## Definitions: `convertToString` and `UpdateContext`

`UpdateContext` receives an `interface{}` value; `convertToString` switches on
its dynamic type.  `GoValue` mirrors the cases of that type switch.  A Go
float is modelled by the shortest decimal representation that `strconv`
computes for it (sign, significant digits, decimal-point position) — the
binary-to-decimal shortest conversion itself is floating-point machinery
outside this embedding, but every float literal appearing in the claims and
in the repository's tests (1.5, 1.0, 3.14159, 42.0, 1.23e10) is its own
shortest representation, so the digits are read off the literal. -/

/-- A Go float value, given by its shortest decimal representation:
the value is `0.digits × 10^dp` (with `digits` the significant digits,
leading digit nonzero, no trailing zeros; `[]` encodes zero). -/
structure FloatDigits where
  neg : Bool
  digits : List Nat
  dp : Int
deriving DecidableEq

/-- The dynamic-type cases of `convertToString`'s type switch. -/
inductive GoValue where
  | str (s : String)
  | int (v : Int)
  | int8 (v : Int)
  | int16 (v : Int)
  | int32 (v : Int)
  | int64 (v : Int)
  | uint (v : Nat)
  | uint8 (v : Nat)
  | uint16 (v : Nat)
  | uint32 (v : Nat)
  | uint64 (v : Nat)
  | float32 (f : FloatDigits)
  | float64 (f : FloatDigits)
  | boolean (b : Bool)
  | unsupported (typeName : String)
deriving DecidableEq

/-- Decimal digit to character. -/
def digitChar (d : Nat) : Char := Char.ofNat (48 + d)

/-- Exponent digits of Go's `%g`/`%e` output, padded to at least two. -/
def expDigits (e : Nat) : String :=
  if e < 10 then "0" ++ Nat.repr e else Nat.repr e

/-- `fmt.Sprintf("%g", v)` on a float given by its shortest decimal digits:
`%g` with default precision uses the shortest digits and renders in
e-notation when the decimal exponent is below -4 or at least 6, in plain
decimal notation otherwise (as exercised by the repository's tests:
`1.5 → "1.5"`, `1.0 → "1"`, `42.0 → "42"`, `3.14159 → "3.14159"`,
`1.23e10 → "1.23e+10"`). -/
def sprintfG (f : FloatDigits) : String :=
  let core :=
    match f.digits with
    | [] => "0"
    | d :: ds =>
      let exp : Int := f.dp - 1
      if exp < -4 ∨ 6 ≤ exp then
        String.mk [digitChar d] ++
          (if ds = [] then "" else "." ++ String.mk (ds.map digitChar)) ++
          "e" ++
          (if exp < 0 then "-" ++ expDigits exp.natAbs
           else "+" ++ expDigits exp.natAbs) else
      if f.dp ≤ 0 then
        "0." ++ String.mk (List.replicate (-f.dp).natAbs '0') ++
          String.mk ((d :: ds).map digitChar) else
      if (((d :: ds).length : Int) ≤ f.dp) then
        String.mk ((d :: ds).map digitChar) ++
          String.mk (List.replicate (f.dp - (d :: ds).length).natAbs '0')
      else
        String.mk (((d :: ds).take f.dp.natAbs).map digitChar) ++ "." ++
          String.mk (((d :: ds).drop f.dp.natAbs).map digitChar)
  if f.neg then "-" ++ core else core

/-- `fmt.Sprintf("%d", v)` for a signed integer. -/
def sprintfD (v : Int) : String :=
  if v < 0 then "-" ++ v.natAbs.repr else v.natAbs.repr

/-- `convertToString` from the source: the type switch rendering a value to
text, or the `unsupported type for interpolation` error. -/
def convertToString : GoValue → Except String String
  | .str s => .ok s
  | .int v => .ok (sprintfD v)
  | .int8 v => .ok (sprintfD v)
  | .int16 v => .ok (sprintfD v)
  | .int32 v => .ok (sprintfD v)
  | .int64 v => .ok (sprintfD v)
  | .uint v => .ok v.repr
  | .uint8 v => .ok v.repr
  | .uint16 v => .ok v.repr
  | .uint32 v => .ok v.repr
  | .uint64 v => .ok v.repr
  | .float32 f => .ok (sprintfG f)
  | .float64 f => .ok (sprintfG f)
  | .boolean b => .ok (if b then "true" else "false")
  | .unsupported t => .error ("unsupported type for interpolation: " ++ t)

/-- The engine state touched by `UpdateContext`: the `availableAsMap`
(variable name → field index, in iteration order), `fieldNames`
(field index → field name) and the `interpolationContext`, all Go maps
modelled as association lists. -/
structure EngineState where
  availableAsMap : List (String × Nat)
  fieldNames : List (Nat × String)
  interpolationContext : List (String × String)
deriving DecidableEq

/-- Go map read `m[k]` for the `fieldNames` map (zero value `""` if absent). -/
def lookupFieldName (m : List (Nat × String)) (k : Nat) : String :=
  match m.find? fun p => p.1 = k with
  | some p => p.2
  | none => ""

/-- Go map write `m[k] = v` on an association list. -/
def ctxSet : List (String × String) → String → String → List (String × String)
  | [], k, v => [(k, v)]
  | (k', v') :: rest, k, v =>
    if k' = k then (k, v) :: rest else (k', v') :: ctxSet rest k v

/-- Go map read `m[k]` returning an `Option`, used as the interpolation
context function. -/
def ctxGet (m : List (String × String)) (k : String) : Option String :=
  (m.find? fun p => p.1 = k).map fun p => p.2

/-- The `InterpolationError` carried by a failing `UpdateContext`
(field name and message). -/
structure InterpolationErr where
  fieldName : String
  message : String
deriving DecidableEq

/-- `UpdateContext` from the source: find the variable name declared by the
field (first `availableAsMap` entry mapping to the index, "" meaning none);
without a declaration do nothing; otherwise convert the value and set the
variable, or fail with an `InterpolationError` naming the field and leave
the state untouched.  The Go method mutates the engine and returns `error`;
the model returns the (possibly updated) state paired with the optional
error. -/
def updateContext (st : EngineState) (fieldIndex : Nat) (value : GoValue) :
    EngineState × Option InterpolationErr :=
  match st.availableAsMap.find? fun p => p.2 = fieldIndex with
  | none => (st, none)
  | some p =>
    if p.1 = "" then (st, none) else
    match convertToString value with
    | .ok s =>
      ({ st with
          interpolationContext := ctxSet st.interpolationContext p.1 s },
        none)
    | .error msg =>
      (st, some ⟨lookupFieldName st.fieldNames fieldIndex,
        "failed to convert value to string: " ++ msg⟩)

/-! ## Definitions: the dependency graph

`DependencyGraph` holds `nodes` (`map[int]*GraphNode`) and `edges`
(`map[int][]int`), both modelled as association lists whose list order
stands in for the map iteration order.  `BuildDependencyGraph` creates one
node per `fieldNames` entry and then, for every dependency `(field, vars)`
and every variable name, appends a provider→dependent edge and increments
the dependent's in-degree, failing on an undeclared name. -/

/-- `GraphNode` without its redundant `fieldIndex` (the map key). -/
structure GraphNode where
  fieldName : String
  inDegree : Nat
deriving DecidableEq

/-- `DependencyGraph` from the source. -/
structure DependencyGraph where
  nodes : List (Nat × GraphNode)
  edges : List (Nat × List Nat)
deriving DecidableEq

/-- The node keys, in iteration order (`for nodeIndex := range g.nodes`). -/
def nodeKeys (g : DependencyGraph) : List Nat := g.nodes.map fun p => p.1

/-- `edges[k]` on the association list (the zero value `[]` if absent). -/
def lookupEdges (es : List (Nat × List Nat)) (k : Nat) : List Nat :=
  match es.find? fun p => p.1 = k with
  | some p => p.2
  | none => []

/-- `g.edges[k]` (the zero value `[]` if absent). -/
def edgesOf (g : DependencyGraph) (k : Nat) : List Nat :=
  lookupEdges g.edges k

/-- Total in-edge multiplicity of `k`: the number of adjacency-list entries
equal to `k`, over all providers. -/
def inEdgeTotal (es : List (Nat × List Nat)) (k : Nat) : Nat :=
  (es.map fun e => e.2.count k).sum

/-- The providers with at least one edge to `k`, one entry each. -/
def distinctProvidersInto (g : DependencyGraph) (k : Nat) : List Nat :=
  (g.edges.filter fun e => e.2.contains k).map fun e => e.1

/-- All variable names the dependency map records for field `k`. -/
def depsVars (deps : List (Nat × List String)) (k : Nat) : List String :=
  (deps.filter fun e => e.1 = k).flatMap fun e => e.2

/-- `g.nodes[k].fieldName` (reads of keys always present in practice; `""`
for an absent key). -/
def nodeName (g : DependencyGraph) (k : Nat) : String :=
  match g.nodes.find? fun p => p.1 = k with
  | some p => p.2.fieldName
  | none => ""

/-- `g.nodes[k].inDegree` (`0` for an absent key). -/
def inDegreeOf (g : DependencyGraph) (k : Nat) : Nat :=
  match g.nodes.find? fun p => p.1 = k with
  | some p => p.2.inDegree
  | none => 0

/-- `graph.edges[p] = append(graph.edges[p], k)` on the association list. -/
def edgesAppend : List (Nat × List Nat) → Nat → Nat → List (Nat × List Nat)
  | [], p, k => [(p, [k])]
  | (p', l) :: rest, p, k =>
    if p' = p then (p, l ++ [k]) :: rest else (p', l) :: edgesAppend rest p k

/-- `graph.nodes[k].inDegree++` (no-op on an absent key, which would be a
nil-pointer panic in Go and never happens on the analysed path). -/
def incInDegree (ns : List (Nat × GraphNode)) (k : Nat) :
    List (Nat × GraphNode) :=
  ns.map fun p =>
    if p.1 = k then (p.1, ⟨p.2.fieldName, p.2.inDegree + 1⟩) else p

/-- `availableAsMap[v]` lookup. -/
def lookupAvail (m : List (String × Nat)) (v : String) : Option Nat :=
  (m.find? fun p => p.1 = v).map fun p => p.2

/-- The `UndefinedVariableError` of `BuildDependencyGraph` and `Analyze`. -/
structure UndefinedVariableErr where
  fieldName : String
  variableName : String
deriving DecidableEq

/-- Inner loop of `BuildDependencyGraph`: add one edge per variable name of
one field, failing on an undeclared name. -/
def addVars (avail : List (String × Nat)) (names : List (Nat × String)) :
    DependencyGraph → Nat → List String →
    Except UndefinedVariableErr DependencyGraph
  | g, _, [] => .ok g
  | g, fi, v :: vs =>
    match lookupAvail avail v with
    | none => .error ⟨lookupFieldName names fi, v⟩
    | some providerIndex =>
      addVars avail names
        ⟨incInDegree g.nodes fi, edgesAppend g.edges providerIndex fi⟩ fi vs

/-- Outer loop of `BuildDependencyGraph` over the `dependencies` map. -/
def addDeps (avail : List (String × Nat)) (names : List (Nat × String)) :
    DependencyGraph → List (Nat × List String) →
    Except UndefinedVariableErr DependencyGraph
  | g, [] => .ok g
  | g, (fi, vars) :: rest =>
    match addVars avail names g fi vars with
    | .error e => .error e
    | .ok g' => addDeps avail names g' rest

/-- `BuildDependencyGraph` from the source. -/
def buildDependencyGraph (dependencies : List (Nat × List String))
    (availableAsMap : List (String × Nat)) (fieldNames : List (Nat × String)) :
    Except UndefinedVariableErr DependencyGraph :=
  addDeps availableAsMap fieldNames
    ⟨fieldNames.map fun p => (p.1, ⟨p.2, 0⟩), []⟩ dependencies

/-! ## Definitions: `DetectCycle`

`DetectCycle` runs a three-state DFS (0 unvisited, 1 visiting, 2 visited)
with a shared mutable `path`; on a back edge into a visiting node it returns
true up the call stack, and the outer loop renders the then-current `path`
into field names closed with its own first name.  (The correctly
reconstructed cycle built inside `dfs` is discarded — the returned value is
the outer reconstruction; see the C3 theorem.)  The recursion is driven by
fuel; `dfsNode` only ever recurses into unvisited nodes, so nesting depth is
bounded by the node count and the fuel `g.nodes.length + 1` used by
`detectCycle` never runs out on graphs whose edges stay within the node set
(shown by the fuel-adequacy lemmas). -/

mutual

/-- `dfs(nodeIndex)` of `DetectCycle`: mark visiting, push, explore
neighbours; afterwards mark visited and pop.  Returns the found-cycle flag
and the updated state and path; `none` is fuel exhaustion (every recursive
call decrements the fuel, making the recursion structural; `dfsFuel` is a
provably sufficient fuel). -/
def dfsNode (g : DependencyGraph) : Nat → Nat → (Nat → Nat) → List Nat →
    Option (Bool × (Nat → Nat) × List Nat)
  | 0, _, _, _ => none
  | fuel + 1, u, st, path =>
    match dfsList g fuel (edgesOf g u)
        (fun x => if x = u then 1 else st x) (path ++ [u]) with
    | none => none
    | some (true, st', path') => some (true, st', path')
    | some (false, st', path') =>
      some (false, fun x => if x = u then 2 else st' x, path'.dropLast)

/-- The `for _, neighbor := range g.edges[nodeIndex]` loop of `dfs`. -/
def dfsList (g : DependencyGraph) : Nat → List Nat → (Nat → Nat) → List Nat →
    Option (Bool × (Nat → Nat) × List Nat)
  | 0, _, _, _ => none
  | _ + 1, [], st, path => some (false, st, path)
  | fuel + 1, v :: vs, st, path =>
    if st v = 1 then some (true, st, path)
    else if st v = 0 then
      match dfsNode g fuel v st path with
      | none => none
      | some (true, st', path') => some (true, st', path')
      | some (false, st', path') => dfsList g fuel vs st' path'
    else dfsList g fuel vs st path

end

/-- A fuel that the DFS provably never exhausts (when edges stay inside the
node set): one unit per node plus one per edge-list entry, plus one. -/
def dfsFuel (g : DependencyGraph) : Nat :=
  ((nodeKeys g).map fun k => 1 + (edgesOf g k).length).sum + 1

/-- Close the rendered cycle path with its first name (`DetectCycle` lines
appending `cyclePath[0]`). -/
def closeCycle : List String → List String
  | [] => []
  | x :: xs => (x :: xs) ++ [x]

/-- The `for nodeIndex := range g.nodes` loop of `DetectCycle`. -/
def detectCycleLoop (g : DependencyGraph) (fuel : Nat) :
    List Nat → (Nat → Nat) → List Nat → Option (List String)
  | [], _, _ => none
  | k :: ks, st, path =>
    if st k = 0 then
      match dfsNode g fuel k st path with
      | none => none
      | some (true, _, path') => some (closeCycle (path'.map (nodeName g)))
      | some (false, st', path') => detectCycleLoop g fuel ks st' path'
    else detectCycleLoop g fuel ks st path

/-- `DetectCycle` from the source: the returned `[]string` is `none` for Go's
`nil` (acyclic) and `some path` otherwise. -/
def detectCycle (g : DependencyGraph) : Option (List String) :=
  detectCycleLoop g (dfsFuel g) (nodeKeys g) (fun _ => 0) []

/-! ## Definitions: `TopologicalSort` -/

/-- The `DependencyGraphError` of the defensive branch. -/
structure DependencyGraphErr where
  operation : String
  message : String
deriving DecidableEq

/-- The errors of `TopologicalSort`. -/
inductive TopoSortErr where
  | cyclic (cycle : List String)
  | structural (e : DependencyGraphErr)
deriving DecidableEq

/-- `len(processed)` (the processed map only ever holds node keys). -/
def processedCount (keys : List Nat) (pr : Nat → Bool) : Nat :=
  (keys.filter pr).length

/-- One decrement per occurrence in `ns` (`inDegree[neighbor]--` for every
edge out of the current stage). -/
def decAll (deg : Nat → Int) (ns : List Nat) : Nat → Int :=
  fun x => deg x - (ns.count x : Int)

/-- The in-degree of `k` not yet accounted for: total edge multiplicity into
`k` from providers the Kahn loop has not processed.  The loop's working
`inDegree` map always equals this quantity. -/
def remInDeg (g : DependencyGraph) (pr : Nat → Bool) (k : Nat) : Int :=
  ((g.edges.filter fun e => !pr e.1).map fun e => (e.2.count k : Int)).sum

/-- The `for len(processed) < len(g.nodes)` loop of `TopologicalSort`.
Fuel exhaustion returns the defensive structural error; the fuel
`g.nodes.length + 1` used by `topologicalSort` is provably sufficient
(`kahnLoop_fuel`), because every successful iteration strictly increases
`len(processed)`, which is bounded by `len(g.nodes)`. -/
def kahnLoop (g : DependencyGraph) : Nat → (Nat → Bool) → (Nat → Int) →
    List (List Nat) → Except DependencyGraphErr (List (List Nat))
  | 0, _, _, _ =>
    .error ⟨"topological sort", "unable to complete sort: possible cycle"⟩
  | fuel + 1, pr, deg, acc =>
    if processedCount (nodeKeys g) pr < g.nodes.length then
      match (nodeKeys g).filter fun k => !pr k && deg k == 0 with
      | [] =>
        .error ⟨"topological sort", "unable to complete sort: possible cycle"⟩
      | s :: stage =>
        kahnLoop g fuel
          (fun x => if x ∈ s :: stage then true else pr x)
          (decAll deg ((s :: stage).flatMap (edgesOf g)))
          (acc ++ [s :: stage])
    else .ok acc

/-- `TopologicalSort` from the source: first the defensive `DetectCycle`
re-run, then layer-by-layer Kahn's algorithm. -/
def topologicalSort (g : DependencyGraph) :
    Except TopoSortErr (List (List Nat)) :=
  match detectCycle g with
  | some cyclePath => .error (.cyclic cyclePath)
  | none =>
    match kahnLoop g (g.nodes.length + 1) (fun _ => false)
        (fun k => (inDegreeOf g k : Int)) [] with
    | .ok stages => .ok stages
    | .error e => .error (.structural e)

/-- The provider→dependent edge relation of the graph. -/
def hasEdge (g : DependencyGraph) (a b : Nat) : Prop := b ∈ edgesOf g a

/-- A directed cycle: some node reaches itself through at least one edge. -/
def hasCycle (g : DependencyGraph) : Prop :=
  ∃ n, Relation.TransGen (hasEdge g) n n

/-- Well-formedness of a graph as `Analyze` builds it: node keys are
distinct and every edge endpoint is a node. -/
def graphWF (g : DependencyGraph) : Prop :=
  (nodeKeys g).Nodup ∧
    ∀ e ∈ g.edges, e.1 ∈ nodeKeys g ∧ ∀ b ∈ e.2, b ∈ nodeKeys g

/-- One-step closure of the `visited` colour: every edge out of a visited
node leads to a visited node.  The DFS maintains this invariant. -/
def ClosedSt (g : DependencyGraph) (st : Nat → Nat) : Prop :=
  ∀ x y, st x = 2 → hasEdge g x y → st y = 2

/-- The fuel the DFS still needs from a given state: one unit per unvisited
node plus one per edge out of it. -/
def unvisitedWeight (g : DependencyGraph) (st : Nat → Nat) : Nat :=
  (((nodeKeys g).filter fun k => st k == 0).map
    fun k => 1 + (edgesOf g k).length).sum

/-- The graph of the C3 failing input: fields `A`, `B`, `C` (indices 0, 1,
2), edges `A→B`, `B→C`, `C→B` — the only cycle is `B→C→B`, reached by the
DFS from `A`. -/
def cycleDemoGraph : DependencyGraph :=
  ⟨[(0, ⟨"A", 0⟩), (1, ⟨"B", 2⟩), (2, ⟨"C", 1⟩)],
    [(0, [1]), (2, [1]), (1, [2])]⟩

/-! ## Definitions: `ParseConfigTag` and `Analyze`

`Analyze` walks the record's fields twice: pass 1 parses each `config` tag
with `ParseConfigTag` (a `TagParseError` aborts at once), rejects
declarations on unexported fields, and records the declarations; duplicates
are rejected after pass 1; pass 2 collects each field's variable references
over the whole tag (deduplicated in first-occurrence order) and rejects the
first reference to an undeclared variable; then — if any interpolation was
seen — the graph is built, cycles are rejected and the stages computed.  A
field of the record is modelled by its name, its exported flag, its `config`
tag value (`""` when absent) and the full tag text. -/

/-- One struct field as `Analyze` sees it. -/
structure FieldDesc where
  name : String
  exported : Bool
  configTag : String
  fullTag : String
deriving DecidableEq

/-- `TagParseError` (field name, tag key, issue). -/
structure TagParseErr where
  fieldName : String
  tagKey : String
  issue : String
deriving DecidableEq

/-- The error kinds `Analyze` can return. -/
inductive AnalyzeErr where
  | tagParse (e : TagParseErr)
  | accessibility (e : InterpolationErr)
  | duplicate (varName : String) (fields : List String)
  | undefinedVar (e : UndefinedVariableErr)
  | cyclic (cycle : List String)
  | structural (e : DependencyGraphErr)
deriving DecidableEq

/-- Whether `pat` is an initial segment of `l` (`strings.Index` inner
comparison). -/
def listStartsWith : List Char → List Char → Bool
  | [], _ => true
  | _ :: _, [] => false
  | p :: ps, c :: cs => p = c && listStartsWith ps cs

/-- `strings.Index`: position of the first occurrence of `pat`, if any. -/
def strIndex (pat : List Char) : List Char → Option Nat
  | [] => if listStartsWith pat [] then some 0 else none
  | c :: cs =>
    if listStartsWith pat (c :: cs) then some 0
    else (strIndex pat cs).map fun n => n + 1

/-- `strings.TrimSpace` (over the whitespace class). -/
def trimSpace (l : List Char) : List Char :=
  ((l.dropWhile Char.isWhitespace).reverse.dropWhile Char.isWhitespace).reverse

/-- `ValidateVariableName`: nonempty and matching `^[A-Za-z0-9_-]+$`. -/
def validateVariableName (l : List Char) : Bool :=
  !l.isEmpty && l.all isVarChar

/-- `ParseConfigTag` from the source: find `availableAs=`, cut the value at
the first comma and at the first space, trim it, and validate it. -/
def parseConfigTag (tag : String) : Except TagParseErr String :=
  if tag.data = [] then
    .error ⟨"<unknown>", "config", "empty config tag"⟩
  else
    match strIndex "availableAs=".data tag.data with
    | none => .error ⟨"<unknown>", "config", "availableAs not found in config tag"⟩
    | some idx =>
      let v0 := tag.data.drop (idx + 12)
      let v1 := v0.takeWhile fun c => !(c = ',')
      let v2 := v1.takeWhile fun c => !(c = ' ')
      let v3 := trimSpace v2
      if v3 = [] then
        .error ⟨"<unknown>", "config", "empty availableAs value"⟩
      else if validateVariableName v3 then .ok (String.mk v3)
      else .error ⟨"<unknown>", "config", "invalid availableAs value"⟩

/-- `availableAsFields[varName] = append(availableAsFields[varName], name)`
on the association list. -/
def afAppend : List (String × List String) → String → String →
    List (String × List String)
  | [], v, n => [(v, [n])]
  | (v', l) :: rest, v, n =>
    if v' = v then (v, l ++ [n]) :: rest else (v', l) :: afAppend rest v n

/-- `availableAsFields[v]` (the zero value `[]` if absent). -/
def afLookup (af : List (String × List String)) (v : String) : List String :=
  match af.find? fun p => p.1 = v with
  | some p => p.2
  | none => []

/-- `e.availableAsMap[varName] = i` (map assignment) on the association
list. -/
def amSet : List (String × Nat) → String → Nat → List (String × Nat)
  | [], v, i => [(v, i)]
  | (v', i') :: rest, v, i =>
    if v' = v then (v, i) :: rest else (v', i') :: amSet rest v i

/-- Pass 1 of `Analyze` over the indexed fields: parse declarations, reject
tag-parse errors at once, reject declarations on unexported fields, record
the declaring fields per variable and the provider map, and track whether
any interpolation was seen. -/
def analyzePass1 :
    List (Nat × FieldDesc) → List (String × List String) →
    List (String × Nat) → Bool →
    Except AnalyzeErr (List (String × List String) × List (String × Nat) × Bool)
  | [], af, am, hi => .ok (af, am, hi)
  | (i, f) :: rest, af, am, hi =>
    if f.configTag = "" then analyzePass1 rest af am hi
    else
      match parseConfigTag f.configTag with
      | .error e => .error (.tagParse ⟨f.name, e.tagKey, e.issue⟩)
      | .ok varName =>
        if !f.exported then
          .error (.accessibility
            ⟨f.name, "field with availableAs must be exported (starts with uppercase)"⟩)
        else
          analyzePass1 rest (afAppend af varName f.name)
            (amSet am varName i) true

/-- The duplicate check after pass 1: the first recorded variable declared
by more than one field, if any. -/
def findDup : List (String × List String) → Option (String × List String)
  | [] => none
  | (v, fs) :: rest => if fs.length > 1 then some (v, fs) else findDup rest

/-- The `seenVars` deduplication of pass 2 (first occurrence kept). -/
def dedupAux : List String → List String → List String
  | [], _ => []
  | v :: vs, seen =>
    if v ∈ seen then dedupAux vs seen else v :: dedupAux vs (v :: seen)

/-- A field's `allVars`: its references deduplicated in scan order. -/
def dedupVars (l : List String) : List String := dedupAux l []

/-- Pass 2 of `Analyze`: collect each field's deduplicated references over
the whole tag, reject the first reference to an undeclared variable, record
the dependency map, and track whether any interpolation was seen. -/
def analyzePass2 (am : List (String × Nat)) :
    List (Nat × FieldDesc) → List (Nat × List String) → Bool →
    Except AnalyzeErr (List (Nat × List String) × Bool)
  | [], deps, hi => .ok (deps, hi)
  | (i, f) :: rest, deps, hi =>
    let allVars := dedupVars (findVariableReferences f.fullTag)
    if allVars.isEmpty then analyzePass2 am rest deps hi
    else
      match allVars.find? fun v => (lookupAvail am v).isNone with
      | some v => .error (.undefinedVar ⟨f.name, v⟩)
      | none => analyzePass2 am rest (deps ++ [(i, allVars)]) true

/-- `Analyze` from the source, over the field descriptions: pass 1,
duplicate check, pass 2, the `hasInterpolation` short-circuit, graph build,
cycle check and topological sort.  Returns `hasInterpolation` and the
dependency stages. -/
def analyze (fields : List FieldDesc) : Except AnalyzeErr (Bool × List (List Nat)) :=
  let ef := fields.enum
  match analyzePass1 ef [] [] false with
  | .error e => .error e
  | .ok (af, am, hi1) =>
    match findDup af with
    | some (v, fs) => .error (.duplicate v fs)
    | none =>
      match analyzePass2 am ef [] hi1 with
      | .error e => .error e
      | .ok (deps, hi) =>
        if !hi then .ok (false, [])
        else
          match buildDependencyGraph deps am (ef.map fun p => (p.1, p.2.name)) with
          | .error e => .error (.undefinedVar e)
          | .ok graph =>
            match detectCycle graph with
            | some cyclePath => .error (.cyclic cyclePath)
            | none =>
              match topologicalSort graph with
              | .error (.cyclic c) => .error (.cyclic c)
              | .error (.structural e) => .error (.structural e)
              | .ok stages => .ok (true, stages)

/-- The variable names declared by the fields' parsed `config` tags, in
field order (with multiplicity). -/
def declVars (fields : List FieldDesc) : List String :=
  fields.filterMap fun f =>
    if f.configTag = "" then none
    else
      match parseConfigTag f.configTag with
      | .ok v => some v
      | .error _ => none

/-- `declVars` over indexed fields (pass-1 view). -/
def declVarsP (ef : List (Nat × FieldDesc)) : List String :=
  ef.filterMap fun p =>
    if p.2.configTag = "" then none
    else
      match parseConfigTag p.2.configTag with
      | .ok v => some v
      | .error _ => none

/-! ## Definitions: `loadWithInterpolation` and `loadStage`

The slow path of `Load`.  The record is abstracted to a state type `σ`; a
loader is `Option (σ → Except String σ)` (`nil` entries allowed), the
record's reflected field values are `fieldVal : σ → Nat → GoValue`, and
`isStageFullyPopulated` is the predicate `populated`.  `loadWithInterpolation`
walks the stages, and per stage runs `InterpolateTags` on the stage's fields
against the engine's current context, then `loadStage` (all loaders over the
whole record, nil check first, then the short-circuit check, then the load,
any error aborting), then `UpdateContext` for every field of the stage; each
error is wrapped with the stage number and aborts the whole load. -/

/-- The errors of `loadWithInterpolation`, each remembering the stage number
of the `fmt.Errorf` wrapping. -/
inductive LoadErr where
  | invalidIndex (stage : Nat) (index : Nat)
  | interpolateTagsFailed (stage : Nat) (e : InterpolationErr)
  | stageNilLoader (stage : Nat) (index : Nat)
  | stageLoaderFailed (stage : Nat) (index : Nat) (msg : String)
  | updateFailed (stage : Nat) (e : InterpolationErr)
deriving DecidableEq

/-- Go's `%v` rendering of a string slice (`[a b c]`), as it appears in the
`undefined variables: %v` message. -/
def goStringSlice (l : List String) : String :=
  "[" ++ String.intercalate " " l ++ "]"

/-- `InterpolateTags` from the source: for each field index, bounds check
(`Sum.inl` is the `invalid field index` error), then `InterpolateString` of
the field's original tag against the context (a failure becomes an
`InterpolationError` naming the field); the interpolated text itself is
discarded (`_ = interpolatedTag`). -/
def interpolateTags (numFields : Nat) (origTags names : Nat → String)
    (ctx : List (String × String)) :
    List Nat → Except (Nat ⊕ InterpolationErr) Unit
  | [] => .ok ()
  | i :: rest =>
    if numFields ≤ i then .error (.inl i)
    else
      match (interpolateString (origTags i) (ctxGet ctx)).2 with
      | some missing =>
        .error (.inr ⟨names i,
          "failed to interpolate tags: undefined variables: "
            ++ goStringSlice missing⟩)
      | none => interpolateTags numFields origTags names ctx rest

/-- `loadStage` from the source: every loader in list order over the whole
record — the nil check first (`Sum.inl` the `loader at index %d is nil`
error), then the short-circuit check (`break` returns the record as is),
then the load (`Sum.inr` the wrapped loader error). -/
def loadStage {σ : Type} (shortCircuit : Bool) (populated : σ → Bool) :
    List (Option (σ → Except String σ)) → Nat → σ →
    Except (Nat ⊕ (Nat × String)) σ
  | [], _, c => .ok c
  | none :: _, i, _ => .error (.inl i)
  | some ld :: rest, i, c =>
    if shortCircuit && populated c then .ok c
    else
      match ld c with
      | .error msg => .error (.inr (i, msg))
      | .ok c' => loadStage shortCircuit populated rest (i + 1) c'

/-- `updateContextForStage` from the source: `UpdateContext` for every field
of the stage with its current record value, the first error aborting. -/
def updateContextForStage {σ : Type} (fieldVal : σ → Nat → GoValue) (c : σ) :
    EngineState → List Nat → Except InterpolationErr EngineState
  | st, [] => .ok st
  | st, i :: rest =>
    match updateContext st i (fieldVal c i) with
    | (st', none) => updateContextForStage fieldVal c st' rest
    | (_, some e) => .error e

/-- `loadWithInterpolation` from the source: the
`for stageNum, stageFields := range stages` loop, threading the record and
the engine state, wrapping each phase's error with the stage number. -/
def loadWithInterpolation {σ : Type} (numFields : Nat)
    (origTags names : Nat → String) (fieldVal : σ → Nat → GoValue)
    (loaders : List (Option (σ → Except String σ)))
    (shortCircuit : Bool) (populated : σ → Bool) :
    List (List Nat) → Nat → σ → EngineState →
    Except LoadErr (σ × EngineState)
  | [], _, c, st => .ok (c, st)
  | sf :: rest, n, c, st =>
    match interpolateTags numFields origTags names
        st.interpolationContext sf with
    | .error (.inl i) => .error (.invalidIndex n i)
    | .error (.inr e) => .error (.interpolateTagsFailed n e)
    | .ok _ =>
      match loadStage shortCircuit populated loaders 0 c with
      | .error (.inl i) => .error (.stageNilLoader n i)
      | .error (.inr (i, msg)) => .error (.stageLoaderFailed n i msg)
      | .ok c' =>
        match updateContextForStage fieldVal c' st sf with
        | .error e => .error (.updateFailed n e)
        | .ok st' =>
          loadWithInterpolation numFields origTags names fieldVal loaders
            shortCircuit populated rest (n + 1) c' st'

/-- Modelled from the spec's words (§4.4 / claim C5): one stage's
processing — with an already-failed load passed through untouched —
performs exactly interpolate-then-load-then-update on the numbered stage. -/
def stageStepSpec {σ : Type} (numFields : Nat) (origTags names : Nat → String)
    (fieldVal : σ → Nat → GoValue)
    (loaders : List (Option (σ → Except String σ)))
    (shortCircuit : Bool) (populated : σ → Bool)
    (acc : Except LoadErr (σ × EngineState)) (p : Nat × List Nat) :
    Except LoadErr (σ × EngineState) :=
  match acc with
  | .error e => .error e
  | .ok (c, st) =>
    match interpolateTags numFields origTags names
        st.interpolationContext p.2 with
    | .error (.inl i) => .error (.invalidIndex p.1 i)
    | .error (.inr e) => .error (.interpolateTagsFailed p.1 e)
    | .ok _ =>
      match loadStage shortCircuit populated loaders 0 c with
      | .error (.inl i) => .error (.stageNilLoader p.1 i)
      | .error (.inr (i, msg)) => .error (.stageLoaderFailed p.1 i msg)
      | .ok c' =>
        match updateContextForStage fieldVal c' st p.2 with
        | .error e => .error (.updateFailed p.1 e)
        | .ok st' => .ok (c', st')

/-- Modelled from the spec's words: the whole staged load is a left fold of
the per-stage step over the numbered stages in order, an error passing
through all later stages unchanged. -/
def loadStagedSpec {σ : Type} (numFields : Nat) (origTags names : Nat → String)
    (fieldVal : σ → Nat → GoValue)
    (loaders : List (Option (σ → Except String σ)))
    (shortCircuit : Bool) (populated : σ → Bool)
    (stages : List (List Nat)) (c : σ) (st : EngineState) :
    Except LoadErr (σ × EngineState) :=
  stages.enum.foldl
    (stageStepSpec numFields origTags names fieldVal loaders shortCircuit
      populated)
    (.ok (c, st))

/-! ## Theorems: scanner infrastructure -/

theorem dropWhile_length_le {α : Type} (p : α → Bool) (l : List α) :
    (l.dropWhile p).length ≤ l.length := by
  induction l with
  | nil => simp
  | cons c cs ih =>
    rw [List.dropWhile]
    split
    · exact Nat.le_succ_of_le ih
    · simp

theorem matchRef_length {l name after : List Char}
    (h : matchRef l = some (name, after)) : after.length < l.length := by
  match l with
  | [] => simp [matchRef] at h
  | [a] => simp [matchRef] at h
  | a :: b :: rest =>
    simp only [matchRef] at h
    split at h
    · split at h
      · exact absurd h (by simp)
      · exact absurd h (by simp)
      · rename_i x nm c aft htake hdrop
        split at h
        · simp only [Option.some.injEq, Prod.mk.injEq] at h
          obtain ⟨-, rfl⟩ := h
          have hle := dropWhile_length_le isVarChar rest
          rw [hdrop] at hle
          simp only [List.length_cons] at *
          omega
        · exact absurd h (by simp)
    · exact absurd h (by simp)

theorem scanPartsF_fuel (f : Nat) : ∀ l : List Char, l.length ≤ f →
    scanPartsF f l = scanParts l := by
  induction f using Nat.strong_induction_on with
  | _ f ih =>
    intro l hl
    match l with
    | [] =>
      cases f <;> rfl
    | c :: cs =>
      match f with
      | 0 => simp at hl
      | f + 1 =>
        simp only [List.length_cons] at hl
        show scanPartsF (f + 1) (c :: cs) = scanPartsF (cs.length + 1) (c :: cs)
        match hm : matchRef (c :: cs) with
        | some (name, rest) =>
          have hr : rest.length < (c :: cs).length := matchRef_length hm
          simp only [List.length_cons] at hr
          simp only [scanPartsF, hm]
          rw [ih f (by omega) rest (by omega),
            ih cs.length (by omega) rest (by omega)]
        | none =>
          simp only [scanPartsF, hm]
          rw [ih f (by omega) cs (by omega)]
          rfl

/-- Recursion structure of `scanParts`, packaged as an induction principle
over texts: the empty text, a text starting with a match (recursing on what
follows the match) and a text whose head does not start a match. -/
theorem scanParts_ind (P : List Char → Prop) (base : P [])
    (found : ∀ c cs name rest, matchRef (c :: cs) = some (name, rest) →
      P rest → P (c :: cs))
    (skip : ∀ c cs, matchRef (c :: cs) = none → P cs → P (c :: cs)) :
    ∀ l, P l := by
  have key : ∀ n, ∀ l : List Char, l.length ≤ n → P l := by
    intro n
    induction n using Nat.strong_induction_on with
    | _ n ih =>
      intro l hl
      match l with
      | [] => exact base
      | c :: cs =>
        match n with
        | 0 => simp at hl
        | n + 1 =>
          simp only [List.length_cons] at hl
          match hm : matchRef (c :: cs) with
          | some (name, rest) =>
            have hr := matchRef_length hm
            simp only [List.length_cons] at hr
            exact found c cs name rest hm (ih n (by omega) rest (by omega))
          | none => exact skip c cs hm (ih n (by omega) cs (by omega))
  exact fun l => key l.length l (Nat.le_refl _)

theorem scanParts_nil : scanParts [] = [] := rfl

theorem scanParts_cons_some {c : Char} {cs name rest : List Char}
    (h : matchRef (c :: cs) = some (name, rest)) :
    scanParts (c :: cs) = Sum.inr name :: scanParts rest := by
  have hr := matchRef_length h
  simp only [List.length_cons] at hr
  show scanPartsF (cs.length + 1) (c :: cs) = _
  simp only [scanPartsF, h]
  rw [scanPartsF_fuel cs.length rest (by omega)]

theorem scanParts_cons_none {c : Char} {cs : List Char}
    (h : matchRef (c :: cs) = none) :
    scanParts (c :: cs) = Sum.inl c :: scanParts cs := by
  show scanPartsF (cs.length + 1) (c :: cs) = _
  simp only [scanPartsF, h]
  rfl

theorem substituteRefsF_fuel (context : String → Option String) (f : Nat) :
    ∀ l : List Char, l.length ≤ f →
    substituteRefsF context f l = substituteRefs context l := by
  induction f using Nat.strong_induction_on with
  | _ f ih =>
    intro l hl
    match l with
    | [] => cases f <;> rfl
    | c :: cs =>
      match f with
      | 0 => simp at hl
      | f + 1 =>
        simp only [List.length_cons] at hl
        show substituteRefsF context (f + 1) (c :: cs) =
          substituteRefsF context (cs.length + 1) (c :: cs)
        match hm : matchRef (c :: cs) with
        | some (name, rest) =>
          have hr : rest.length < (c :: cs).length := matchRef_length hm
          simp only [List.length_cons] at hr
          simp only [substituteRefsF, hm]
          rw [ih f (by omega) rest (by omega),
            ih cs.length (by omega) rest (by omega)]
        | none =>
          simp only [substituteRefsF, hm]
          rw [ih f (by omega) cs (by omega)]
          rfl

theorem substituteRefs_cons_some {context : String → Option String} {c : Char}
    {cs name rest : List Char} (h : matchRef (c :: cs) = some (name, rest)) :
    substituteRefs context (c :: cs) =
      (match context (String.mk name) with
       | some v => v.data
       | none => '$' :: '{' :: (name ++ ['}'])) ++
        substituteRefs context rest := by
  have hr := matchRef_length h
  simp only [List.length_cons] at hr
  show substituteRefsF context (cs.length + 1) (c :: cs) = _
  simp only [substituteRefsF, h]
  rw [substituteRefsF_fuel context cs.length rest (by omega)]

theorem substituteRefs_cons_none {context : String → Option String} {c : Char}
    {cs : List Char} (h : matchRef (c :: cs) = none) :
    substituteRefs context (c :: cs) = c :: substituteRefs context cs := by
  show substituteRefsF context (cs.length + 1) (c :: cs) = _
  simp only [substituteRefsF, h]
  rfl

theorem findVariableReferences_eq (s : String) :
    findVariableReferences s = partNames (scanParts s.data) := rfl

/-- The `missingVars` accumulator of `InterpolateString` collects exactly the
scanned names absent from the context, in scan order. -/
theorem replaceParts_snd (context : String → Option String)
    (ps : List (Char ⊕ List Char)) :
    (replaceParts context ps).2 =
      (partNames ps).filter fun n => (context n).isNone := by
  induction ps with
  | nil => simp [replaceParts, partNames]
  | cons p ps ih =>
    match p with
    | Sum.inl c =>
      simp only [replaceParts, partNames, List.filterMap_cons] at *
      exact ih
    | Sum.inr name =>
      simp only [replaceParts, partNames, List.filterMap_cons] at *
      match hc : context (String.mk name) with
      | some v => simp [hc, List.filter_cons, ih]
      | none => simp [hc, List.filter_cons, ih]

/-- When every scanned name is present in the context, the replacement pass
agrees with the direct single-pass substitution `substituteRefs`. -/
theorem replaceParts_fst (context : String → Option String) : ∀ l : List Char,
    (∀ n ∈ partNames (scanParts l), (context n).isSome) →
    (replaceParts context (scanParts l)).1 = substituteRefs context l := by
  apply scanParts_ind
  · intro _
    simp [scanParts_nil, replaceParts, substituteRefs, substituteRefsF]
  · intro c cs name rest hm ih h
    rw [scanParts_cons_some hm, substituteRefs_cons_some hm]
    have hpres : (context (String.mk name)).isSome := by
      apply h
      rw [scanParts_cons_some hm]
      simp [partNames]
    match hc : context (String.mk name) with
    | some v =>
      simp only [replaceParts, hc]
      have := ih (by
        intro n hn
        apply h
        rw [scanParts_cons_some hm]
        simp only [partNames, List.filterMap_cons] at hn ⊢
        exact List.mem_cons_of_mem _ hn)
      simp [this]
    | none => simp [hc] at hpres
  · intro c cs hm ih h
    rw [scanParts_cons_none hm, substituteRefs_cons_none hm]
    simp only [replaceParts]
    have := ih (by
      intro n hn
      apply h
      rw [scanParts_cons_none hm]
      simp only [partNames, List.filterMap_cons] at hn ⊢
      exact hn)
    simp [this]

/-- Text with no reference scans to all-literal parts. -/
theorem scanParts_of_no_refs : ∀ l : List Char,
    partNames (scanParts l) = [] → scanParts l = l.map Sum.inl := by
  apply scanParts_ind
  · intro _
    simp [scanParts_nil]
  · intro c cs name rest hm ih h
    rw [scanParts_cons_some hm] at h
    simp [partNames] at h
  · intro c cs hm ih h
    rw [scanParts_cons_none hm] at h ⊢
    simp only [List.map_cons, List.cons.injEq, true_and]
    exact ih (by simpa [partNames] using h)

theorem replaceParts_map_inl (context : String → Option String)
    (cs : List Char) :
    replaceParts context (cs.map Sum.inl) = (cs, []) := by
  induction cs with
  | nil => simp [replaceParts]
  | cons c cs ih => simp [replaceParts, ih]

/-! ## Claims C7, C8, C10: `InterpolateString` -/

/-- For C7: the claim "if every referenced name is present it succeeds and
the result contains no remaining well-formed references to names of the
original text" fails as stated.  With context `A ↦ "${B}", B ↦ "y"` the text
`"${A}${B}"` has every referenced name present, so interpolation succeeds,
yet the result `"${B}y"` contains a well-formed reference to `B`, a name of
(and referenced in) the original text: the replacement pass is single-pass
and does not rescan substituted values. -/
theorem C7_counterexample :
    (interpolateString "$\x7bA\x7d$\x7bB\x7d" ctxAB).2 = none ∧
    (interpolateString "$\x7bA\x7d$\x7bB\x7d" ctxAB).1 = "$\x7bB\x7dy" ∧
    "B" ∈ findVariableReferences "$\x7bB\x7dy" ∧
    "B" ∈ findVariableReferences "$\x7bA\x7d$\x7bB\x7d" := by decide

/-- C7 (amended): for every input string and context, `InterpolateString`
replaces, in one left-to-right pass, every well-formed `${NAME}` reference
whose name is in the context with the context value (the success result is
exactly the single-pass substitution of the text); if at least one
well-formed reference names a variable absent from the context it returns an
error reporting the complete list of all missing names, in scan order (it
does not stop at the first missing one).  New well-formed references may
appear in the result when substituted values combine with surrounding text,
since replaced text is not rescanned. -/
theorem C7_interpolateString_amended (s : String)
    (context : String → Option String) :
    (((findVariableReferences s).filter fun n => (context n).isNone) = [] →
      interpolateString s context =
        (String.mk (substituteRefs context s.data), none)) ∧
    (((findVariableReferences s).filter fun n => (context n).isNone) ≠ [] →
      interpolateString s context =
        ("", some ((findVariableReferences s).filter
          fun n => (context n).isNone))) := by
  have hsnd := replaceParts_snd context (scanParts s.data)
  rw [← findVariableReferences_eq] at hsnd
  constructor
  · intro hmiss
    have hall : ∀ n ∈ partNames (scanParts s.data), (context n).isSome := by
      intro n hn
      by_contra hc
      have hmem : n ∈ (findVariableReferences s).filter
          fun n => (context n).isNone := by
        rw [List.mem_filter]
        refine ⟨by rw [findVariableReferences_eq]; exact hn, ?_⟩
        simpa [Option.isNone_iff_eq_none, Option.not_isSome_iff_eq_none]
          using hc
      rw [hmiss] at hmem
      simp at hmem
    have hfst := replaceParts_fst context s.data hall
    simp only [interpolateString]
    rw [hsnd, hmiss, hfst]
  · intro hmiss
    simp only [interpolateString]
    rw [hsnd]
    match hm : (findVariableReferences s).filter
        fun n => (context n).isNone with
    | [] => exact absurd hm hmiss
    | a :: m => rfl

/-- Witness for C7: a concrete successful interpolation through the amended
theorem. -/
theorem C7_witness :
    interpolateString "/app/$\x7bENV\x7d/x" ctxEnvProd =
      (String.mk (substituteRefs ctxEnvProd ("/app/$\x7bENV\x7d/x").data),
        none) :=
  (C7_interpolateString_amended "/app/$\x7bENV\x7d/x" ctxEnvProd).1 (by decide)

/-- C8: `InterpolateString` is idempotent on reference-free text: any text
with no well-formed `${NAME}` token is returned unchanged with no error, for
every context.  Moreover `"/app/${ENV}/x"` against `{"ENV": "prod"}` yields
`"/app/prod/x"`, and re-substituting that result against the same context
returns it unchanged. -/
theorem C8_interpolateString_idempotent :
    (∀ (s : String) (context : String → Option String),
      findVariableReferences s = [] → interpolateString s context = (s, none)) ∧
    interpolateString "/app/$\x7bENV\x7d/x" ctxEnvProd = ("/app/prod/x", none) ∧
    interpolateString "/app/prod/x" ctxEnvProd = ("/app/prod/x", none) := by
  refine ⟨?_, by decide, by decide⟩
  intro s context h
  rw [findVariableReferences_eq] at h
  have hmap := scanParts_of_no_refs s.data h
  simp only [interpolateString]
  rw [hmap, replaceParts_map_inl]

/-- Witness for C8: the universally quantified component applied to a
concrete reference-free text. -/
theorem C8_witness : interpolateString "abc" ctxEnvProd = ("abc", none) :=
  C8_interpolateString_idempotent.1 "abc" ctxEnvProd (by decide)

/-- C10: whenever `InterpolateString` fails (its error component is non-nil),
the string it returns is the empty string — the partially substituted text is
never handed to the caller. -/
theorem C10_error_empty_result (s : String) (context : String → Option String)
    (h : (interpolateString s context).2 ≠ none) :
    (interpolateString s context).1 = "" := by
  simp only [interpolateString] at h ⊢
  match hm : (replaceParts context (scanParts s.data)).2 with
  | [] => rw [hm] at h; exact absurd rfl h
  | a :: m => rfl

/-- Witness for C10: a concrete failing interpolation returns `""`. -/
theorem C10_witness :
    (interpolateString "$\x7bMISSING\x7d" (fun _ => none)).1 = "" :=
  C10_error_empty_result "$\x7bMISSING\x7d" (fun _ => none) (by decide)

/-! ## Claim C6: `UpdateContext` conversions -/

/-- C6: for every engine state and every field that has a declaration
(`availableAsMap` maps some nonempty variable name to its index),
`UpdateContext` stores a string value unchanged; stores signed and unsigned
integers of any width as their base-10 digit string (`8080 → "8080"`);
stores floats compactly (`1.5 → "1.5"`, `1.0 → "1"`, `3.14159 → "3.14159"`,
`1.23e10 → "1.23e+10"`, also for `float32`); stores booleans as
`"true"`/`"false"`; and fails on any other value kind with an error naming
the field, leaving the state (hence the context) unchanged. -/
theorem C6_updateContext_conversions (st : EngineState) (idx : Nat)
    (vn : String) (h : (st.availableAsMap.find? fun p => p.2 = idx) =
      some (vn, idx)) (hvn : vn ≠ "") :
    (∀ s, updateContext st idx (.str s) =
      ({ st with
          interpolationContext := ctxSet st.interpolationContext vn s },
        none)) ∧
    (∀ v, updateContext st idx (.int v) =
      ({ st with
          interpolationContext := ctxSet st.interpolationContext vn (sprintfD v) },
        none)) ∧
    (updateContext st idx (.int 8080) =
      ({ st with
          interpolationContext := ctxSet st.interpolationContext vn "8080" },
        none)) ∧
    (updateContext st idx (.int8 (-5)) =
      ({ st with
          interpolationContext := ctxSet st.interpolationContext vn "-5" },
        none)) ∧
    (updateContext st idx (.int64 8080) =
      ({ st with
          interpolationContext := ctxSet st.interpolationContext vn "8080" },
        none)) ∧
    (∀ v, updateContext st idx (.uint64 v) =
      ({ st with
          interpolationContext := ctxSet st.interpolationContext vn v.repr },
        none)) ∧
    (updateContext st idx (.uint 8080) =
      ({ st with
          interpolationContext := ctxSet st.interpolationContext vn "8080" },
        none)) ∧
    (updateContext st idx (.float64 ⟨false, [1, 5], 1⟩) =
      ({ st with
          interpolationContext := ctxSet st.interpolationContext vn "1.5" },
        none)) ∧
    (updateContext st idx (.float64 ⟨false, [1], 1⟩) =
      ({ st with
          interpolationContext := ctxSet st.interpolationContext vn "1" },
        none)) ∧
    (updateContext st idx (.float64 ⟨false, [3, 1, 4, 1, 5, 9], 1⟩) =
      ({ st with
          interpolationContext := ctxSet st.interpolationContext vn "3.14159" },
        none)) ∧
    (updateContext st idx (.float64 ⟨false, [1, 2, 3], 11⟩) =
      ({ st with
          interpolationContext := ctxSet st.interpolationContext vn "1.23e+10" },
        none)) ∧
    (updateContext st idx (.float32 ⟨false, [1, 5], 1⟩) =
      ({ st with
          interpolationContext := ctxSet st.interpolationContext vn "1.5" },
        none)) ∧
    (updateContext st idx (.boolean true) =
      ({ st with
          interpolationContext := ctxSet st.interpolationContext vn "true" },
        none)) ∧
    (updateContext st idx (.boolean false) =
      ({ st with
          interpolationContext := ctxSet st.interpolationContext vn "false" },
        none)) ∧
    (∀ t, updateContext st idx (.unsupported t) =
      (st, some ⟨lookupFieldName st.fieldNames idx,
        "failed to convert value to string: " ++
          ("unsupported type for interpolation: " ++ t)⟩)) := by
  have hif : (if vn = "" then True else False) = False := by
    simp [hvn]
  refine ⟨?_, ?_, ?_, ?_, ?_, ?_, ?_, ?_, ?_, ?_, ?_, ?_, ?_, ?_, ?_⟩ <;>
    first
      | (intro v
         simp only [updateContext, h, convertToString]
         rw [if_neg hvn])
      | (simp only [updateContext, h, convertToString]
         rw [if_neg hvn]
         rfl)

/-- Witness for C6: a concrete engine state with one declared field, an
integer store and a failing unsupported value. -/
theorem C6_witness :
    (updateContext ⟨[("VALUE", 0)], [(0, "Value")], []⟩ 0 (.int 8080) =
      (⟨[("VALUE", 0)], [(0, "Value")], [("VALUE", "8080")]⟩, none)) ∧
    (updateContext ⟨[("VALUE", 0)], [(0, "Value")], []⟩ 0
        (.unsupported "struct") =
      (⟨[("VALUE", 0)], [(0, "Value")], []⟩,
        some ⟨"Value", "failed to convert value to string: " ++
          "unsupported type for interpolation: struct"⟩)) := by
  have h := C6_updateContext_conversions ⟨[("VALUE", 0)], [(0, "Value")], []⟩
    0 "VALUE" (by decide) (by decide)
  refine ⟨h.2.2.1, ?_⟩
  rw [h.2.2.2.2.2.2.2.2.2.2.2.2.2.2 "struct"]
  decide

/-! ## Claim C3: the path returned by `DetectCycle` -/

/-- C3 (code bug): on the graph `A→B`, `B→C`, `C→B` — built by
`BuildDependencyGraph` from field `B` referencing `A`'s and `C`'s variables
and field `C` referencing `B`'s — the only directed cycle is `B→C→B`
(no edge enters node 0 = `A`, first conjunct), yet `DetectCycle`, starting
its traversal at `A`, returns `["A", "B", "C", "A"]`: the whole DFS path
closed with the traversal root `A`, not the cycle
`["B", "C", "B"]` from the first occurrence of the in-progress node `B`
claimed by the specification (and by the function's own doc comment).  The
correctly reconstructed `cyclePath` inside `dfs` is dead code — its value is
discarded when `dfs` returns `true`. -/
theorem C3_detectCycle_returns_dfs_path :
    (∀ y, ¬ hasEdge cycleDemoGraph y 0) ∧
    buildDependencyGraph [(1, ["VA", "VC"]), (2, ["VB"])]
      [("VA", 0), ("VB", 1), ("VC", 2)] [(0, "A"), (1, "B"), (2, "C")] =
      .ok cycleDemoGraph ∧
    detectCycle cycleDemoGraph = some ["A", "B", "C", "A"] ∧
    ["A", "B", "C", "A"] ≠ ["B", "C", "B"] := by
  refine ⟨?_, by rfl, by decide, by decide⟩
  intro y h
  simp only [hasEdge, edgesOf, lookupEdges, cycleDemoGraph] at h
  by_cases h0 : y = 0
  · subst h0; simp [List.find?] at h
  by_cases h2 : y = 2
  · subst h2; simp [List.find?] at h
  by_cases h1 : y = 1
  · subst h1; simp [List.find?] at h
  · simp only [List.find?] at h
    rw [decide_eq_false (by omega : ¬ (0 = y)),
      decide_eq_false (by omega : ¬ (2 = y)),
      decide_eq_false (by omega : ¬ (1 = y))] at h
    simp at h

/-! ## Theorems: `BuildDependencyGraph` structure -/

theorem lookupEdges_cons (q : Nat) (l : List Nat)
    (rest : List (Nat × List Nat)) (p : Nat) :
    lookupEdges ((q, l) :: rest) p = if q = p then l else lookupEdges rest p := by
  by_cases h : q = p <;> simp [lookupEdges, List.find?, h]

theorem edgesAppend_cons (q : Nat) (l : List Nat)
    (rest : List (Nat × List Nat)) (p0 k0 : Nat) :
    edgesAppend ((q, l) :: rest) p0 k0 =
      if q = p0 then (p0, l ++ [k0]) :: rest
      else (q, l) :: edgesAppend rest p0 k0 := by
  by_cases h : q = p0 <;> simp [edgesAppend, h]

theorem lookupEdges_append (es : List (Nat × List Nat)) (p0 k0 p : Nat) :
    lookupEdges (edgesAppend es p0 k0) p =
      if p = p0 then lookupEdges es p ++ [k0] else lookupEdges es p := by
  induction es with
  | nil =>
    by_cases hp : p = p0
    · subst hp
      simp [edgesAppend, lookupEdges]
    · have hq : ¬ (p0 = p) := fun h => hp h.symm
      simp [edgesAppend, lookupEdges, List.find?, decide_eq_false hq, hp]
  | cons e rest ih =>
    match e with
    | (q, l) =>
      rw [edgesAppend_cons]
      by_cases hq : q = p0
      · rw [if_pos hq]
        by_cases hp : p = p0
        · subst hp hq
          rw [lookupEdges_cons, lookupEdges_cons, if_pos rfl, if_pos rfl]
          rw [if_pos rfl]
        · have h1 : ¬ (p0 = p) := fun h => hp h.symm
          have h2 : ¬ (q = p) := fun h => hp (h.symm.trans hq)
          rw [lookupEdges_cons, lookupEdges_cons, if_neg h1, if_neg h2,
            if_neg hp]
      · rw [if_neg hq, lookupEdges_cons, lookupEdges_cons]
        by_cases hqp : q = p
        · rw [if_pos hqp, if_pos hqp]
          have hp : ¬ (p = p0) := fun h => hq (hqp.trans h)
          rw [if_neg hp]
        · rw [if_neg hqp, if_neg hqp, ih]

theorem inEdgeTotal_nil (k : Nat) : inEdgeTotal [] k = 0 := rfl

theorem inEdgeTotal_cons (q : Nat) (l : List Nat)
    (rest : List (Nat × List Nat)) (k : Nat) :
    inEdgeTotal ((q, l) :: rest) k = l.count k + inEdgeTotal rest k := by
  simp [inEdgeTotal]

theorem inEdgeTotal_append (es : List (Nat × List Nat)) (p0 k0 k : Nat) :
    inEdgeTotal (edgesAppend es p0 k0) k =
      inEdgeTotal es k + (if k = k0 then 1 else 0) := by
  induction es with
  | nil =>
    by_cases h : k = k0 <;>
      simp [edgesAppend, inEdgeTotal, List.count_cons, h]
  | cons e rest ih =>
    match e with
    | (q, l) =>
      rw [edgesAppend_cons]
      by_cases hq : q = p0
      · rw [if_pos hq, inEdgeTotal_cons, inEdgeTotal_cons]
        by_cases h : k = k0 <;>
          simp [List.count_append, List.count_cons, h] <;> omega
      · rw [if_neg hq, inEdgeTotal_cons, inEdgeTotal_cons, ih]
        omega

theorem edgesAppend_keys (es : List (Nat × List Nat)) (p0 k0 : Nat) :
    (edgesAppend es p0 k0).map (fun e => e.1) =
      if p0 ∈ es.map (fun e => e.1) then es.map (fun e => e.1)
      else es.map (fun e => e.1) ++ [p0] := by
  induction es with
  | nil => simp [edgesAppend]
  | cons e rest ih =>
    match e with
    | (q, l) =>
      rw [edgesAppend_cons]
      by_cases hq : q = p0
      · rw [if_pos hq]
        have : p0 ∈ ((q, l) :: rest).map (fun e => e.1) := by
          simp [hq.symm]
        rw [if_pos this]
        simp [hq]
      · rw [if_neg hq]
        by_cases hmem : p0 ∈ rest.map (fun e => e.1)
        · have : p0 ∈ ((q, l) :: rest).map (fun e => e.1) := by
            simp [hmem]
          rw [if_pos this]
          simp only [List.map_cons, ih, if_pos hmem]
        · have : ¬ p0 ∈ ((q, l) :: rest).map (fun e => e.1) := by
            simp only [List.map_cons, List.mem_cons]
            push_neg
            exact ⟨fun h => hq h.symm, hmem⟩
          rw [if_neg this]
          simp only [List.map_cons, ih, if_neg hmem]
          simp

theorem edgesAppend_keys_nodup {es : List (Nat × List Nat)} (p0 k0 : Nat)
    (h : (es.map (fun e => e.1)).Nodup) :
    ((edgesAppend es p0 k0).map (fun e => e.1)).Nodup := by
  rw [edgesAppend_keys]
  by_cases hmem : p0 ∈ es.map (fun e => e.1)
  · rwa [if_pos hmem]
  · rw [if_neg hmem]
    simp only [List.nodup_append, List.nodup_singleton]
    refine ⟨h, by simp, ?_⟩
    intro a ha hb
    simp only [List.mem_singleton] at hb
    exact hmem (hb ▸ ha)

theorem inDegreeOf_cons (q : Nat) (node : GraphNode)
    (rest : List (Nat × GraphNode)) (es : List (Nat × List Nat)) (k : Nat) :
    inDegreeOf ⟨(q, node) :: rest, es⟩ k =
      if q = k then node.inDegree else inDegreeOf ⟨rest, es⟩ k := by
  by_cases h : q = k <;> simp [inDegreeOf, List.find?, h]

theorem incInDegree_cons (q : Nat) (node : GraphNode)
    (rest : List (Nat × GraphNode)) (k0 : Nat) :
    incInDegree ((q, node) :: rest) k0 =
      (if q = k0 then (q, ⟨node.fieldName, node.inDegree + 1⟩) else (q, node))
        :: incInDegree rest k0 := by
  by_cases h : q = k0 <;> simp [incInDegree, h]

theorem incInDegree_keys (ns : List (Nat × GraphNode)) (k0 : Nat) :
    (incInDegree ns k0).map (fun p => p.1) = ns.map (fun p => p.1) := by
  induction ns with
  | nil => rfl
  | cons e rest ih =>
    match e with
    | (q, node) =>
      rw [incInDegree_cons]
      by_cases h : q = k0 <;> simp [h, ih]

theorem inDegree_incInDegree (ns : List (Nat × GraphNode))
    (es es' : List (Nat × List Nat)) (k0 k : Nat) :
    inDegreeOf ⟨incInDegree ns k0, es⟩ k =
      inDegreeOf ⟨ns, es'⟩ k +
        (if k = k0 ∧ k0 ∈ ns.map (fun p => p.1) then 1 else 0) := by
  induction ns with
  | nil => simp [incInDegree, inDegreeOf]
  | cons e rest ih =>
    match e with
    | (q, node) =>
      rw [incInDegree_cons]
      by_cases hq : q = k0
      · rw [if_pos hq, inDegreeOf_cons, inDegreeOf_cons]
        by_cases hk : q = k
        · rw [if_pos hk, if_pos hk]
          have hcond : k = k0 ∧ k0 ∈ ((q, node) :: rest).map (fun p => p.1) :=
            ⟨hk.symm.trans hq, by rw [← hq]; simp⟩
          rw [if_pos hcond]
        · rw [if_neg hk, if_neg hk, ih]
          have hkk0 : ¬ k = k0 := fun h => hk (hq.trans h.symm)
          rw [if_neg (fun hc : _ ∧ _ => hkk0 hc.1),
            if_neg (fun hc : _ ∧ _ => hkk0 hc.1)]
      · rw [if_neg hq, inDegreeOf_cons, inDegreeOf_cons]
        by_cases hk : q = k
        · rw [if_pos hk, if_pos hk]
          have hcond : ¬ (k = k0 ∧ k0 ∈ ((q, node) :: rest).map (fun p => p.1)) :=
            fun hc => hq (hk.trans hc.1)
          rw [if_neg hcond]
          omega
        · rw [if_neg hk, if_neg hk, ih]
          congr 1
          have hmem : (k0 ∈ ((q, node) :: rest).map (fun p => p.1)) ↔
              k0 ∈ rest.map (fun p => p.1) := by
            simp only [List.map_cons, List.mem_cons]
            constructor
            · rintro (h | h)
              · exact absurd h.symm hq
              · exact h
            · exact Or.inr
          by_cases hc : k = k0 ∧ k0 ∈ rest.map (fun p => p.1)
          · rw [if_pos hc, if_pos ⟨hc.1, hmem.mpr hc.2⟩]
          · rw [if_neg hc, if_neg fun hx : _ ∧ _ => hc ⟨hx.1, hmem.mp hx.2⟩]

theorem addVars_ok (avail : List (String × Nat)) (names : List (Nat × String))
    (vs : List String) : ∀ (g g' : DependencyGraph) (fi : Nat),
    addVars avail names g fi vs = .ok g' →
    g'.nodes.map (fun p => p.1) = g.nodes.map (fun p => p.1) ∧
    (∀ k, inDegreeOf g' k = inDegreeOf g k +
      (if k = fi ∧ fi ∈ g.nodes.map (fun p => p.1) then vs.length else 0)) ∧
    (∀ k, inEdgeTotal g'.edges k = inEdgeTotal g.edges k +
      (if k = fi then vs.length else 0)) ∧
    (∀ p k, (lookupEdges g'.edges p).count k =
      (lookupEdges g.edges p).count k +
      (if k = fi then
        (vs.filter fun v => lookupAvail avail v = some p).length else 0)) ∧
    ((g.edges.map (fun e => e.1)).Nodup →
      (g'.edges.map (fun e => e.1)).Nodup) := by
  induction vs with
  | nil =>
    intro g g' fi h
    simp only [addVars] at h
    cases h
    refine ⟨rfl, fun k => by simp, fun k => by simp, fun p k => by simp,
      fun hx => hx⟩
  | cons v vs ih =>
    intro g g' fi h
    simp only [addVars] at h
    match hl : lookupAvail avail v with
    | none =>
      simp only [hl] at h
      exact absurd h (by simp)
    | some pv =>
      simp only [hl] at h
      obtain ⟨hkeys, hdeg, htot, hcnt, hnd⟩ := ih _ g' fi h
      have hik := incInDegree_keys g.nodes fi
      constructor
      · rw [hkeys]
        exact hik
      constructor
      · intro k
        rw [hdeg k]
        have h2 := inDegree_incInDegree g.nodes
          (edgesAppend g.edges pv fi) g.edges fi k
        have hg : (⟨g.nodes, g.edges⟩ : DependencyGraph) = g := rfl
        rw [hg] at h2
        rw [show (⟨incInDegree g.nodes fi, edgesAppend g.edges pv fi⟩ :
            DependencyGraph).nodes.map (fun p => p.1) =
            g.nodes.map (fun p => p.1) from hik]
        rw [h2]
        by_cases hc : k = fi ∧ fi ∈ g.nodes.map (fun p => p.1)
        · rw [if_pos hc, if_pos hc, if_pos hc]
          simp only [List.length_cons]
          omega
        · rw [if_neg hc, if_neg hc, if_neg hc]
      constructor
      · intro k
        rw [htot k]
        have h2 : inEdgeTotal (edgesAppend g.edges pv fi) k =
            inEdgeTotal g.edges k + (if k = fi then 1 else 0) :=
          inEdgeTotal_append g.edges pv fi k
        rw [show (⟨incInDegree g.nodes fi, edgesAppend g.edges pv fi⟩ :
            DependencyGraph).edges = edgesAppend g.edges pv fi from rfl] at htot ⊢
        rw [h2]
        by_cases hc : k = fi
        · rw [if_pos hc, if_pos hc, if_pos hc]
          simp only [List.length_cons]
          omega
        · rw [if_neg hc, if_neg hc, if_neg hc]
      constructor
      · intro p k
        rw [hcnt p k]
        have h2 := lookupEdges_append g.edges pv fi p
        rw [show (⟨incInDegree g.nodes fi, edgesAppend g.edges pv fi⟩ :
            DependencyGraph).edges = edgesAppend g.edges pv fi from rfl]
        rw [h2]
        have hfilter : ((v :: vs).filter
            fun w => lookupAvail avail w = some p).length =
            (if pv = p then 1 else 0) +
            ((vs.filter fun w => lookupAvail avail w = some p)).length := by
          rw [List.filter_cons]
          by_cases hp : pv = p
          · have hd : (decide (lookupAvail avail v = some p)) = true := by
              rw [hl, hp]
              simp
            simp only [hd, if_true, List.length_cons, if_pos hp]
            omega
          · have hd : (decide (lookupAvail avail v = some p)) = false := by
              rw [hl]
              simp only [decide_eq_false_iff_not, ne_eq, Option.some.injEq]
              exact hp
            simp only [hd, Bool.false_eq_true, if_false, if_neg hp]
            omega
        by_cases hpp : p = pv
        · rw [if_pos hpp, List.count_append]
          have hc1 : ([fi].count k) = if k = fi then 1 else 0 := by
            by_cases hc : k = fi
            · simp [hc]
            · simp [List.count_cons, hc]
          rw [hc1, hfilter]
          by_cases hc : k = fi
          · rw [if_pos hc, if_pos hc, if_pos hc, if_pos (hpp ▸ rfl : pv = p)]
            omega
          · rw [if_neg hc, if_neg hc, if_neg hc]
        · rw [if_neg hpp, hfilter]
          have hp2 : ¬ (pv = p) := fun hx => hpp hx.symm
          rw [if_neg hp2]
          by_cases hc : k = fi
          · rw [if_pos hc, if_pos hc]
            omega
          · rw [if_neg hc, if_neg hc]
      · intro hx
        exact hnd (edgesAppend_keys_nodup pv fi hx)

theorem depsVars_cons (f : Nat) (vars : List String)
    (rest : List (Nat × List String)) (k : Nat) :
    depsVars ((f, vars) :: rest) k =
      (if f = k then vars else []) ++ depsVars rest k := by
  by_cases h : f = k <;> simp [depsVars, List.filter_cons, h]

theorem addDeps_ok (avail : List (String × Nat)) (names : List (Nat × String))
    (deps : List (Nat × List String)) : ∀ (g g' : DependencyGraph),
    addDeps avail names g deps = .ok g' →
    (∀ e ∈ deps, e.1 ∈ g.nodes.map (fun p => p.1)) →
    g'.nodes.map (fun p => p.1) = g.nodes.map (fun p => p.1) ∧
    (∀ k, inDegreeOf g' k = inDegreeOf g k + (depsVars deps k).length) ∧
    (∀ k, inEdgeTotal g'.edges k =
      inEdgeTotal g.edges k + (depsVars deps k).length) ∧
    (∀ p k, (lookupEdges g'.edges p).count k =
      (lookupEdges g.edges p).count k +
      ((depsVars deps k).filter fun v => lookupAvail avail v = some p).length) ∧
    ((g.edges.map (fun e => e.1)).Nodup →
      (g'.edges.map (fun e => e.1)).Nodup) := by
  induction deps with
  | nil =>
    intro g g' h _
    simp only [addDeps] at h
    cases h
    exact ⟨rfl, fun k => by simp [depsVars], fun k => by simp [depsVars],
      fun p k => by simp [depsVars], fun hx => hx⟩
  | cons e rest ih =>
    intro g g' h hf
    match e with
    | (fi, vars) =>
      simp only [addDeps] at h
      match hv : addVars avail names g fi vars with
      | .error err =>
        simp only [hv] at h
        exact absurd h (by simp)
      | .ok g1 =>
        simp only [hv] at h
        obtain ⟨k1, d1, t1, c1, n1⟩ := addVars_ok avail names vars g g1 fi hv
        obtain ⟨k2, d2, t2, c2, n2⟩ := ih g1 g' h (fun e he => by
          rw [k1]
          exact hf e (List.mem_cons_of_mem _ he))
        have hfi : fi ∈ g.nodes.map (fun p => p.1) := hf (fi, vars) (by simp)
        refine ⟨k2.trans k1, ?_, ?_, ?_, fun hx => n2 (n1 hx)⟩
        · intro k
          rw [d2 k, d1 k, depsVars_cons]
          by_cases hk : k = fi
          · rw [if_pos ⟨hk, hfi⟩, if_pos hk.symm]
            simp only [List.length_append]
            omega
          · rw [if_neg (fun hc : _ ∧ _ => hk hc.1),
              if_neg fun hx => hk hx.symm]
            simp only [List.nil_append]
            omega
        · intro k
          rw [t2 k, t1 k, depsVars_cons]
          by_cases hk : k = fi
          · rw [if_pos hk, if_pos hk.symm]
            simp only [List.length_append]
            omega
          · rw [if_neg hk, if_neg fun hx => hk hx.symm]
            simp only [List.nil_append]
            omega
        · intro p k
          rw [c2 p k, c1 p k, depsVars_cons]
          by_cases hk : k = fi
          · rw [if_pos hk, if_pos hk.symm]
            simp only [List.filter_append, List.length_append]
            omega
          · rw [if_neg hk, if_neg fun hx => hk hx.symm]
            simp only [List.nil_append]
            omega

theorem inDegreeOf_initNodes (names : List (Nat × String))
    (es : List (Nat × List Nat)) (k : Nat) :
    inDegreeOf ⟨names.map fun p => (p.1, ⟨p.2, 0⟩), es⟩ k = 0 := by
  induction names with
  | nil => simp [inDegreeOf]
  | cons e rest ih =>
    match e with
    | (q, nm) =>
      simp only [List.map_cons]
      rw [inDegreeOf_cons]
      by_cases h : q = k
      · rw [if_pos h]
      · rw [if_neg h]
        exact ih

/-- The structure of a successfully built graph: node keys are the field
indices, the in-degree of every node equals its total in-edge multiplicity,
which equals the number of variable names its dependency entry records, and
the multiset of edges `p → k` is the multiset of recorded names of `k` whose
provider lookup is `p`. -/
theorem build_ok {deps : List (Nat × List String)} {avail : List (String × Nat)}
    {names : List (Nat × String)} {g : DependencyGraph}
    (hb : buildDependencyGraph deps avail names = .ok g)
    (hf : ∀ e ∈ deps, e.1 ∈ names.map fun p => p.1) :
    nodeKeys g = (names.map fun p => p.1) ∧
    (∀ k, inDegreeOf g k = (depsVars deps k).length) ∧
    (∀ k, inEdgeTotal g.edges k = (depsVars deps k).length) ∧
    (∀ p k, (lookupEdges g.edges p).count k =
      ((depsVars deps k).filter fun v => lookupAvail avail v = some p).length) ∧
    (g.edges.map fun e => e.1).Nodup := by
  simp only [buildDependencyGraph] at hb
  obtain ⟨hk, hd, ht, hc, hn⟩ := addDeps_ok avail names deps
    ⟨names.map fun p => (p.1, ⟨p.2, 0⟩), []⟩ g hb (by
      intro e he
      simpa using hf e he)
  refine ⟨?_, ?_, ?_, ?_, hn (by simp)⟩
  · show g.nodes.map (fun p => p.1) = _
    rw [hk]
    simp
  · intro k
    rw [hd k, inDegreeOf_initNodes]
    omega
  · intro k
    rw [ht k]
    simp [inEdgeTotal]
  · intro p k
    rw [hc p k]
    simp [lookupEdges]

theorem depsVars_of_not_mem {deps : List (Nat × List String)} {k : Nat}
    (h : ¬ k ∈ deps.map fun e => e.1) : depsVars deps k = [] := by
  induction deps with
  | nil => rfl
  | cons e rest ih =>
    match e with
    | (f, vars) =>
      rw [depsVars_cons]
      have hf : ¬ (f = k) := by
        intro hx
        exact h (by simp [hx])
      rw [if_neg hf, List.nil_append]
      exact ih fun hx => h (by simp; right; exact (by simpa using hx))

theorem depsVars_nodup {deps : List (Nat × List String)}
    (hdk : (deps.map fun e => e.1).Nodup) (hdv : ∀ e ∈ deps, e.2.Nodup)
    (k : Nat) : (depsVars deps k).Nodup := by
  induction deps with
  | nil => simp [depsVars]
  | cons e rest ih =>
    match e with
    | (f, vars) =>
      rw [depsVars_cons]
      simp only [List.map_cons, List.nodup_cons] at hdk
      by_cases hf : f = k
      · rw [if_pos hf]
        have hrest : depsVars rest k = [] :=
          depsVars_of_not_mem (hf ▸ hdk.1)
        rw [hrest, List.append_nil]
        exact hdv (f, vars) (by simp)
      · rw [if_neg hf, List.nil_append]
        exact ih hdk.2 fun e he => hdv e (List.mem_cons_of_mem _ he)

theorem lookupAvail_mem {avail : List (String × Nat)} {v : String} {p : Nat}
    (h : lookupAvail avail v = some p) : (v, p) ∈ avail := by
  simp only [lookupAvail, Option.map_eq_some'] at h
  obtain ⟨e, he, hp⟩ := h
  have hmem := List.mem_of_find?_eq_some he
  have hkey := List.find?_some he
  simp only [decide_eq_true_eq] at hkey
  have : e = (v, p) := by
    match e with
    | (a, b) =>
      simp only at hkey hp
      rw [hkey, hp]
  exact this ▸ hmem

theorem filter_lookup_length_le_one {avail : List (String × Nat)}
    (hinj : ∀ e1 ∈ avail, ∀ e2 ∈ avail, e1.2 = e2.2 → e1.1 = e2.1)
    {l : List String} (hl : l.Nodup) (p : Nat) :
    ((l.filter fun v => lookupAvail avail v = some p)).length ≤ 1 := by
  induction l with
  | nil => simp
  | cons v rest ih =>
    simp only [List.nodup_cons] at hl
    rw [List.filter_cons]
    by_cases hv : lookupAvail avail v = some p
    · rw [if_pos (by simpa using hv)]
      have hrest : rest.filter (fun w => lookupAvail avail w = some p) = [] := by
        rw [List.filter_eq_nil_iff]
        intro w hw hwp
        simp only [decide_eq_true_eq] at hwp
        have h1 := lookupAvail_mem hv
        have h2 := lookupAvail_mem hwp
        have : v = w := hinj (v, p) h1 (w, p) h2 rfl
        exact hl.1 (this ▸ hw)
      rw [hrest]
      simp
    · rw [if_neg (by simpa using hv)]
      exact ih hl.2

theorem lookupEdges_self {es : List (Nat × List Nat)}
    (hn : (es.map fun e => e.1).Nodup) :
    ∀ e ∈ es, lookupEdges es e.1 = e.2 := by
  induction es with
  | nil => simp
  | cons q rest ih =>
    match q with
    | (qk, ql) =>
      simp only [List.map_cons, List.nodup_cons] at hn
      intro e he
      rcases List.mem_cons.mp he with he | he
      · rw [he]
        simp [lookupEdges_cons]
      · rw [lookupEdges_cons]
        have : ¬ (qk = e.1) := by
          intro hx
          exact hn.1 (hx ▸ List.mem_map_of_mem (fun p => p.1) he)
        rw [if_neg this]
        exact ih hn.2 e he

theorem inEdgeTotal_eq_distinct {es : List (Nat × List Nat)} (k : Nat)
    (h : ∀ e ∈ es, e.2.count k ≤ 1) :
    inEdgeTotal es k = ((es.filter fun e => e.2.contains k).map
      fun e => e.1).length := by
  induction es with
  | nil => simp [inEdgeTotal]
  | cons e rest ih =>
    match e with
    | (q, l) =>
      rw [inEdgeTotal_cons, List.filter_cons]
      by_cases hc : l.contains k
      · rw [if_pos (by simpa using hc)]
        have hmem : k ∈ l := by simpa using hc
        have h1 : l.count k = 1 := by
          have hle := h (q, l) (by simp)
          simp only at hle
          have h2 : 1 ≤ l.count k := List.one_le_count_iff.mpr hmem
          omega
        simp only [List.map_cons, List.length_cons]
        rw [h1, ih fun e he => h e (List.mem_cons_of_mem _ he)]
        omega
      · rw [if_neg (by simpa using hc)]
        have hmem : ¬ k ∈ l := by simpa using hc
        have h1 : l.count k = 0 := List.count_eq_zero.mpr hmem
        rw [h1, ih fun e he => h e (List.mem_cons_of_mem _ he)]
        omega

/-! ## Claim C9: in-degree counts distinct provider edges -/

/-- C9: in a graph built by `BuildDependencyGraph` from an analysis result —
per-field reference lists deduplicated (as `Analyze`'s `seenVars` pass
guarantees), dependency keys unique (map keys), the provider map injective
(each field declares at most one variable), every dependent a field — every
node's in-degree equals the number of distinct provider edges pointing to
it: no adjacency list mentions the same dependent twice (repeated references
to one variable contribute no extra edges), and distinct fields providing
variables to the same dependent each contribute their own counted edge. -/
theorem C9_inDegree_distinct_providers {deps : List (Nat × List String)}
    {avail : List (String × Nat)} {names : List (Nat × String)}
    {g : DependencyGraph}
    (hb : buildDependencyGraph deps avail names = .ok g)
    (hf : ∀ e ∈ deps, e.1 ∈ names.map fun p => p.1)
    (hdk : (deps.map fun e => e.1).Nodup)
    (hdv : ∀ e ∈ deps, e.2.Nodup)
    (hinj : ∀ e1 ∈ avail, ∀ e2 ∈ avail, e1.2 = e2.2 → e1.1 = e2.1) :
    ∀ k, inDegreeOf g k = (distinctProvidersInto g k).length ∧
      ∀ e ∈ g.edges, e.2.count k ≤ 1 := by
  obtain ⟨hk, hd, ht, hc, hn⟩ := build_ok hb hf
  intro k
  have hcount : ∀ e ∈ g.edges, e.2.count k ≤ 1 := by
    intro e he
    have h1 := lookupEdges_self hn e he
    rw [← h1, hc e.1 k]
    exact filter_lookup_length_le_one hinj (depsVars_nodup hdk hdv k) e.1
  refine ⟨?_, hcount⟩
  rw [hd k, ← ht k, inEdgeTotal_eq_distinct k hcount]
  rfl

/-- Witness for C9: on the demo graph, node 1 (`B`) has in-degree 2 with two
distinct providers (`A` and `C`). -/
theorem C9_witness :
    (inDegreeOf cycleDemoGraph 1 = 2 ∧
      (distinctProvidersInto cycleDemoGraph 1).length = 2) ∧
    (inDegreeOf cycleDemoGraph 1 =
      (distinctProvidersInto cycleDemoGraph 1).length ∧
      ∀ e ∈ cycleDemoGraph.edges, e.2.count 1 ≤ 1) := by
  refine ⟨by decide, ?_⟩
  exact C9_inDegree_distinct_providers
    (show buildDependencyGraph [(1, ["VA", "VC"]), (2, ["VB"])]
      [("VA", 0), ("VB", 1), ("VC", 2)] [(0, "A"), (1, "B"), (2, "C")] =
      .ok cycleDemoGraph from rfl)
    (by decide) (by decide) (by decide) (by decide) 1

/-! ## Theorems: `DetectCycle` is a sound and complete cycle test (C2) -/

theorem hasEdge_mem {g : DependencyGraph} (hwf : graphWF g) {a b : Nat}
    (h : hasEdge g a b) : a ∈ nodeKeys g ∧ b ∈ nodeKeys g := by
  simp only [hasEdge, edgesOf, lookupEdges] at h
  match hfind : g.edges.find? fun p => p.1 = a with
  | none => rw [hfind] at h; simp at h
  | some e =>
    rw [hfind] at h
    have hmem := List.mem_of_find?_eq_some hfind
    have hkey := List.find?_some hfind
    simp only [decide_eq_true_eq] at hkey
    obtain ⟨h1, h2⟩ := hwf.2 e hmem
    exact ⟨hkey ▸ h1, h2 b h⟩

theorem closed_reach {g : DependencyGraph} {st : Nat → Nat}
    (hc : ClosedSt g st) {x y : Nat} (hx : st x = 2)
    (hr : Relation.ReflTransGen (hasEdge g) x y) : st y = 2 := by
  induction hr with
  | refl => exact hx
  | tail _ hedge ih => exact hc _ _ ih hedge

theorem chain_to_last {g : DependencyGraph} : ∀ (l : List Nat),
    l.Chain' (hasEdge g) → ∀ v ∈ l, ∀ w, l.getLast? = some w →
    Relation.ReflTransGen (hasEdge g) v w := by
  intro l
  induction l with
  | nil => intro _ v hv; simp at hv
  | cons a rest ih =>
    intro hch v hv w hw
    match rest with
    | [] =>
      simp only [List.mem_singleton] at hv
      simp only [List.getLast?_singleton, Option.some.injEq] at hw
      rw [hv, ← hw]
    | b :: rest' =>
      have hch' := (List.chain'_cons.mp hch)
      have hlast : (b :: rest').getLast? = some w := by
        simpa using hw
      rcases List.mem_cons.mp hv with hv | hv
      · subst hv
        have hb := ih hch'.2 b (by simp) w hlast
        exact Relation.ReflTransGen.head hch'.1 hb
      · exact ih hch'.2 v hv w hlast

theorem weight_mono {g : DependencyGraph} {st st' : Nat → Nat}
    (h : ∀ x, st x ≤ st' x) :
    unvisitedWeight g st' ≤ unvisitedWeight g st := by
  unfold unvisitedWeight
  induction nodeKeys g with
  | nil => simp
  | cons k ks ih =>
    simp only [List.filter_cons]
    by_cases h1 : st' k = 0
    · have h0 : st k = 0 := Nat.le_zero.mp (h1 ▸ h k)
      simp only [h0, h1, beq_self_eq_true, if_true]
      simp only [List.map_cons, List.sum_cons]
      omega
    · by_cases h0 : st k = 0
      · simp only [h0, beq_self_eq_true, if_true,
          beq_eq_false_iff_ne.mpr h1]
        simp only [List.map_cons, List.sum_cons, Bool.false_eq_true, if_false]
        omega
      · simp only [beq_eq_false_iff_ne.mpr h1, beq_eq_false_iff_ne.mpr h0,
          Bool.false_eq_true, if_false]
        exact ih

theorem sum_filter_visit (w : Nat → Nat) (st : Nat → Nat) (u : Nat) :
    ∀ ks : List Nat, ks.Nodup → u ∈ ks → st u = 0 →
    ((ks.filter fun k => st k == 0).map w).sum =
      ((ks.filter fun k => (if k = u then 1 else st k) == 0).map w).sum +
        w u := by
  intro ks
  induction ks with
  | nil => intro _ hu; simp at hu
  | cons k rest ih =>
    intro hnd hu h0
    simp only [List.nodup_cons] at hnd
    rcases List.mem_cons.mp hu with hk | hk
    · subst hk
      simp only [List.filter_cons, h0, beq_self_eq_true, if_true]
      have h1 : ((1 : Nat) == 0) = false := by decide
      rw [h1]
      simp only [Bool.false_eq_true, if_false]
      have hrest : rest.filter (fun x => (if x = u then 1 else st x) == 0) =
          rest.filter fun x => st x == 0 := by
        apply List.filter_congr
        intro x hx
        have : ¬ (x = u) := fun hv => hnd.1 (hv ▸ hx)
        rw [if_neg this]
      rw [hrest]
      simp only [List.map_cons, List.sum_cons]
      omega
    · have hne : ¬ (k = u) := fun hv => hnd.1 (hv ▸ hk)
      simp only [List.filter_cons]
      have heq : ((if k = u then (1 : Nat) else st k) == 0) = (st k == 0) := by
        rw [if_neg hne]
      rw [heq]
      by_cases hsk : st k = 0
      · simp only [hsk, beq_self_eq_true, if_true, List.map_cons,
          List.sum_cons]
        rw [ih hnd.2 hk h0]
        omega
      · simp only [beq_eq_false_iff_ne.mpr hsk, Bool.false_eq_true, if_false]
        exact ih hnd.2 hk h0

theorem weight_visit {g : DependencyGraph} (hnd : (nodeKeys g).Nodup)
    {u : Nat} (hu : u ∈ nodeKeys g) {st : Nat → Nat} (h0 : st u = 0) :
    unvisitedWeight g st =
      unvisitedWeight g (fun x => if x = u then 1 else st x) +
        (1 + (edgesOf g u).length) :=
  sum_filter_visit (fun k => 1 + (edgesOf g k).length) st u (nodeKeys g)
    hnd hu h0

/-- Facts about a `false`-returning DFS call: the path is restored, states
only grow (staying ≤ 2), the set of in-progress nodes is unchanged, the
entered node (resp. every listed neighbour) ends visited, and one-step
closure of the visited colour is preserved. -/
theorem dfsFalse (g : DependencyGraph) : ∀ fuel : Nat,
    (∀ (u : Nat) (st : Nat → Nat) (path : List Nat) st' path', st u = 0 →
      (∀ x, st x ≤ 2) → ClosedSt g st →
      dfsNode g fuel u st path = some (false, st', path') →
      path' = path ∧ (∀ x, st x ≤ st' x) ∧ (∀ x, st' x ≤ 2) ∧
      (∀ x, st' x = 1 ↔ st x = 1) ∧ st' u = 2 ∧ ClosedSt g st') ∧
    (∀ (ns : List Nat) (st : Nat → Nat) (path : List Nat) st' path',
      (∀ x, st x ≤ 2) → ClosedSt g st →
      dfsList g fuel ns st path = some (false, st', path') →
      path' = path ∧ (∀ x, st x ≤ st' x) ∧ (∀ x, st' x ≤ 2) ∧
      (∀ x, st' x = 1 ↔ st x = 1) ∧ (∀ v ∈ ns, st' v = 2) ∧
      ClosedSt g st') := by
  intro fuel
  induction fuel with
  | zero =>
    constructor
    · intro u st path st' path' _ _ _ h
      simp [dfsNode] at h
    · intro ns st path st' path' _ _ h
      simp [dfsList] at h
  | succ fuel ih =>
    obtain ⟨ihN, ihL⟩ := ih
    constructor
    · intro u st path st' path' h0 hr hc h
      simp only [dfsNode] at h
      match hd : dfsList g fuel (edgesOf g u)
          (fun x => if x = u then 1 else st x) (path ++ [u]) with
      | none => rw [hd] at h; exact absurd h (by simp)
      | some (true, st2, path2) => rw [hd] at h; exact absurd h (by simp)
      | some (false, st2, path2) =>
        rw [hd] at h
        simp only [Option.some.injEq, Prod.mk.injEq, true_and] at h
        obtain ⟨hst', hpath'⟩ := h
        have hr1 : ∀ x, (fun x => if x = u then 1 else st x) x ≤ 2 := by
          intro x
          by_cases hx : x = u <;> simp [hx]
          exact hr x
        have hc1 : ClosedSt g (fun x => if x = u then 1 else st x) := by
          intro x y hx he
          simp only at hx ⊢
          by_cases hxu : x = u
          · rw [if_pos hxu] at hx
            exact absurd hx (by omega)
          · rw [if_neg hxu] at hx
            have hy := hc x y hx he
            have hyu : ¬ (y = u) := by
              intro hv
              rw [hv, h0] at hy
              exact absurd hy (by omega)
            rw [if_neg hyu]
            exact hy
        obtain ⟨hpath2, hmono2, hrange2, hvis2, hneigh2, hclosed2⟩ :=
          ihL (edgesOf g u) _ (path ++ [u]) st2 path2 hr1 hc1 hd
        refine ⟨?_, ?_, ?_, ?_, ?_, ?_⟩
        · rw [← hpath', hpath2, List.dropLast_concat]
        · intro x
          rw [← hst']
          by_cases hx : x = u
          · subst hx
            simp [h0]
          · simp only [hx, if_false]
            have := hmono2 x
            simp only [hx, if_false] at this
            simpa using this
        · intro x
          rw [← hst']
          by_cases hx : x = u <;> simp [hx]
          exact hrange2 x
        · intro x
          rw [← hst']
          by_cases hx : x = u
          · subst hx
            simp [h0]
          · simp only [hx, if_false]
            rw [hvis2 x]
            simp [hx]
        · rw [← hst']
          simp
        · intro x y hx he
          rw [← hst'] at hx ⊢
          by_cases hy : y = u
          · simp [hy]
          · simp only [hy, if_false]
            by_cases hx2 : x = u
            · simp only [hx2, if_pos rfl] at hx
              subst hx2
              exact hneigh2 y he
            · simp only [hx2, if_false] at hx
              exact hclosed2 x y hx he
    · intro ns st path st' path' hr hc h
      match ns with
      | [] =>
        simp only [dfsList, Option.some.injEq, Prod.mk.injEq, true_and] at h
        obtain ⟨h1, h2⟩ := h
        exact ⟨h2.symm, fun x => by rw [h1], fun x => by rw [← h1]; exact hr x,
          fun x => by rw [h1], by simp, fun x y hx he => by
            rw [← h1] at hx ⊢; exact hc x y hx he⟩
      | v :: vs =>
        simp only [dfsList] at h
        by_cases hv1 : st v = 1
        · rw [if_pos hv1] at h
          exact absurd h (by simp)
        · rw [if_neg hv1] at h
          by_cases hv0 : st v = 0
          · rw [if_pos hv0] at h
            match hd : dfsNode g fuel v st path with
            | none => rw [hd] at h; exact absurd h (by simp)
            | some (true, stA, pathA) => rw [hd] at h; exact absurd h (by simp)
            | some (false, stA, pathA) =>
              rw [hd] at h
              obtain ⟨hpathA, hmonoA, hrangeA, hvisA, hvA, hclosedA⟩ :=
                ihN v st path stA pathA hv0 hr hc hd
              obtain ⟨hpathB, hmonoB, hrangeB, hvisB, hneighB, hclosedB⟩ :=
                ihL vs stA pathA st' path' hrangeA hclosedA h
              refine ⟨hpathB.trans hpathA, ?_, hrangeB, ?_, ?_, hclosedB⟩
              · intro x
                exact Nat.le_trans (hmonoA x) (hmonoB x)
              · intro x
                rw [hvisB x, hvisA x]
              · intro w hw
                rcases List.mem_cons.mp hw with hw | hw
                · subst hw
                  have h1 := hmonoB w
                  rw [hvA] at h1
                  have h2 := hrangeB w
                  omega
                · exact hneighB w hw
          · rw [if_neg hv0] at h
            obtain ⟨hpathB, hmonoB, hrangeB, hvisB, hneighB, hclosedB⟩ :=
              ihL vs st path st' path' hr hc h
            refine ⟨hpathB, hmonoB, hrangeB, hvisB, ?_, hclosedB⟩
            intro w hw
            rcases List.mem_cons.mp hw with hw | hw
            · subst hw
              have hv2 : st w = 2 := by
                have := hr w
                omega
              have h1 := hmonoB w
              have h2 := hrangeB w
              omega
            · exact hneighB w hw

theorem range_mark {st : Nat → Nat} (hr : ∀ x, st x ≤ 2) (u : Nat) :
    ∀ x, (fun x => if x = u then 1 else st x) x ≤ 2 := by
  intro x
  by_cases hx : x = u
  · simp [hx]
  · simp only [hx, if_false]
    exact hr x

theorem closed_mark {g : DependencyGraph} {st : Nat → Nat}
    (hc : ClosedSt g st) {u : Nat} (h0 : st u = 0) :
    ClosedSt g (fun x => if x = u then 1 else st x) := by
  intro x y hx he
  simp only at hx ⊢
  by_cases hxu : x = u
  · rw [if_pos hxu] at hx
    exact absurd hx (by omega)
  · rw [if_neg hxu] at hx
    have hy := hc x y hx he
    have hyu : ¬ (y = u) := by
      intro hv
      rw [hv, h0] at hy
      exact absurd hy (by omega)
    rw [if_neg hyu]
    exact hy

theorem vis_mark {st : Nat → Nat} {path : List Nat}
    (hv : ∀ x, st x = 1 ↔ x ∈ path) (u : Nat) :
    ∀ x, (fun x => if x = u then 1 else st x) x = 1 ↔ x ∈ path ++ [u] := by
  intro x
  by_cases hx : x = u
  · simp [hx]
  · simp only [hx, if_false, List.mem_append, List.mem_singleton]
    rw [hv x]
    constructor
    · exact Or.inl
    · rintro (h | h)
      · exact h
      · exact h.elim

/-- A `true`-returning DFS call, run under the path invariants (the
in-progress set is exactly the path, the path is an edge chain, and the
current node extends it by an edge), exhibits a directed cycle. -/
theorem dfsTrue (g : DependencyGraph) : ∀ fuel : Nat,
    (∀ (u : Nat) (st : Nat → Nat) (path : List Nat) st' path', st u = 0 →
      (∀ x, st x ≤ 2) → ClosedSt g st →
      (∀ x, st x = 1 ↔ x ∈ path) → path.Chain' (hasEdge g) →
      (path = [] ∨ ∃ w, path.getLast? = some w ∧ hasEdge g w u) →
      dfsNode g fuel u st path = some (true, st', path') →
      ∃ n, Relation.TransGen (hasEdge g) n n) ∧
    (∀ (ns : List Nat) (st : Nat → Nat) (path : List Nat) st' path',
      (∀ x, st x ≤ 2) → ClosedSt g st →
      (∀ x, st x = 1 ↔ x ∈ path) → path.Chain' (hasEdge g) →
      (∃ w, path.getLast? = some w ∧ ∀ v ∈ ns, hasEdge g w v) →
      dfsList g fuel ns st path = some (true, st', path') →
      ∃ n, Relation.TransGen (hasEdge g) n n) := by
  intro fuel
  induction fuel with
  | zero =>
    constructor
    · intro u st path st' path' _ _ _ _ _ _ h
      simp [dfsNode] at h
    · intro ns st path st' path' _ _ _ _ _ h
      simp [dfsList] at h
  | succ fuel ih =>
    obtain ⟨ihN, ihL⟩ := ih
    constructor
    · intro u st path st' path' h0 hr hc hv hch hlast h
      simp only [dfsNode] at h
      match hd : dfsList g fuel (edgesOf g u)
          (fun x => if x = u then 1 else st x) (path ++ [u]) with
      | none => rw [hd] at h; exact absurd h (by simp)
      | some (false, st2, path2) => rw [hd] at h; exact absurd h (by simp)
      | some (true, st2, path2) =>
        refine ihL (edgesOf g u) _ (path ++ [u]) st2 path2
          (range_mark hr u) (closed_mark hc h0) (vis_mark hv u) ?_ ?_ hd
        · rw [List.chain'_append]
          refine ⟨hch, List.chain'_singleton u, ?_⟩
          intro x hx y hy
          simp only [List.head?_cons, Option.mem_def, Option.some.injEq] at hy
          subst hy
          rcases hlast with hemp | ⟨w, hw, hedge⟩
          · subst hemp
            simp at hx
          · rw [hw] at hx
            simp only [Option.mem_def, Option.some.injEq] at hx
            subst hx
            exact hedge
        · exact ⟨u, by simp, fun v hv => hv⟩
    · intro ns st path st' path' hr hc hv hch hlast h
      match ns with
      | [] => simp [dfsList] at h
      | v :: vs =>
        simp only [dfsList] at h
        obtain ⟨w, hw, hedges⟩ := hlast
        by_cases hv1 : st v = 1
        · have hvp : v ∈ path := (hv v).mp hv1
          have hreach := chain_to_last path hch v hvp w hw
          exact ⟨v, Relation.TransGen.trans_right hreach
            (Relation.TransGen.single (hedges v (by simp)))⟩
        · rw [if_neg hv1] at h
          by_cases hv0 : st v = 0
          · rw [if_pos hv0] at h
            match hd : dfsNode g fuel v st path with
            | none => rw [hd] at h; exact absurd h (by simp)
            | some (true, stA, pathA) =>
              exact ihN v st path stA pathA hv0 hr hc hv hch
                (Or.inr ⟨w, hw, hedges v (by simp)⟩) hd
            | some (false, stA, pathA) =>
              rw [hd] at h
              obtain ⟨hpathA, hmonoA, hrangeA, hvisA, hvA, hclosedA⟩ :=
                ((dfsFalse g fuel).1) v st path stA pathA hv0 hr hc hd
              refine ihL vs stA pathA st' path' hrangeA hclosedA ?_
                (hpathA ▸ hch) ?_ h
              · intro x
                rw [hvisA x, hpathA]
                exact hv x
              · refine ⟨w, hpathA ▸ hw, fun x hx => hedges x (by simp [hx])⟩
          · rw [if_neg hv0] at h
            exact ihL vs st path st' path' hr hc hv hch
              ⟨w, hw, fun x hx => hedges x (by simp [hx])⟩ h

/-- Completeness core: a node that a `false`-returning DFS call newly turns
visited lies on no directed cycle.  (If it did, its cycle successor would be
visited after the neighbour loop, closure would force the node itself
visited, yet it is still in progress.) -/
theorem dfsNC (g : DependencyGraph) : ∀ fuel : Nat,
    (∀ (u : Nat) (st : Nat → Nat) (path : List Nat) st' path', st u = 0 →
      (∀ x, st x ≤ 2) → ClosedSt g st →
      dfsNode g fuel u st path = some (false, st', path') →
      ∀ z, st z = 0 → st' z = 2 → ¬ Relation.TransGen (hasEdge g) z z) ∧
    (∀ (ns : List Nat) (st : Nat → Nat) (path : List Nat) st' path',
      (∀ x, st x ≤ 2) → ClosedSt g st →
      dfsList g fuel ns st path = some (false, st', path') →
      ∀ z, st z = 0 → st' z = 2 → ¬ Relation.TransGen (hasEdge g) z z) := by
  intro fuel
  induction fuel with
  | zero =>
    constructor
    · intro u st path st' path' _ _ _ h
      simp [dfsNode] at h
    · intro ns st path st' path' _ _ h
      simp [dfsList] at h
  | succ fuel ih =>
    obtain ⟨ihN, ihL⟩ := ih
    constructor
    · intro u st path st' path' h0 hr hc h z hz0 hz2 hcyc
      simp only [dfsNode] at h
      match hd : dfsList g fuel (edgesOf g u)
          (fun x => if x = u then 1 else st x) (path ++ [u]) with
      | none => rw [hd] at h; exact absurd h (by simp)
      | some (true, st2, path2) => rw [hd] at h; exact absurd h (by simp)
      | some (false, st2, path2) =>
        rw [hd] at h
        simp only [Option.some.injEq, Prod.mk.injEq, true_and] at h
        obtain ⟨hst', hpath'⟩ := h
        obtain ⟨hpath2, hmono2, hrange2, hvis2, hneigh2, hclosed2⟩ :=
          (dfsFalse g fuel).2 (edgesOf g u) _ (path ++ [u]) st2 path2
            (range_mark hr u) (closed_mark hc h0) hd
        by_cases hzu : z = u
        · subst hzu
          obtain ⟨w, hw, hreach⟩ := (Relation.TransGen.head'_iff).mp hcyc
          have hw2 : st2 w = 2 := hneigh2 w hw
          have hz2' : st2 z = 2 := closed_reach hclosed2 hw2 hreach
          have hz1 : st2 z = 1 := by
            rw [hvis2 z]
            simp
          omega
        · have hz2'' : st2 z = 2 := by
            rw [← hst'] at hz2
            simpa [hzu] using hz2
          have hz0' : (fun x => if x = u then 1 else st x) z = 0 := by
            simp [hzu, hz0]
          exact ihL (edgesOf g u) _ (path ++ [u]) st2 path2
            (range_mark hr u) (closed_mark hc h0) hd z hz0' hz2'' hcyc
    · intro ns st path st' path' hr hc h z hz0 hz2 hcyc
      match ns with
      | [] =>
        simp only [dfsList, Option.some.injEq, Prod.mk.injEq, true_and] at h
        rw [← h.1] at hz2
        omega
      | v :: vs =>
        simp only [dfsList] at h
        by_cases hv1 : st v = 1
        · rw [if_pos hv1] at h
          exact absurd h (by simp)
        · rw [if_neg hv1] at h
          by_cases hv0 : st v = 0
          · rw [if_pos hv0] at h
            match hd : dfsNode g fuel v st path with
            | none => rw [hd] at h; exact absurd h (by simp)
            | some (true, stA, pathA) => rw [hd] at h; exact absurd h (by simp)
            | some (false, stA, pathA) =>
              rw [hd] at h
              obtain ⟨hpathA, hmonoA, hrangeA, hvisA, hvA, hclosedA⟩ :=
                (dfsFalse g fuel).1 v st path stA pathA hv0 hr hc hd
              by_cases hzA : stA z = 2
              · exact ihN v st path stA pathA hv0 hr hc hd z hz0 hzA hcyc
              · have hz0A : stA z = 0 := by
                  have h1 : ¬ stA z = 1 := by
                    rw [hvisA z]
                    omega
                  have := hrangeA z
                  omega
                exact ihL vs stA pathA st' path' hrangeA hclosedA h z
                  hz0A hz2 hcyc
          · rw [if_neg hv0] at h
            exact ihL vs st path st' path' hr hc h z hz0 hz2 hcyc

/-- Fuel adequacy: with more fuel than the unvisited weight, the DFS never
exhausts its fuel (on a well-formed graph, under the colour invariants). -/
theorem dfsSuff (g : DependencyGraph) (hwf : graphWF g) : ∀ fuel : Nat,
    (∀ (u : Nat) (st : Nat → Nat) (path : List Nat), st u = 0 →
      u ∈ nodeKeys g → (∀ x, st x ≤ 2) → ClosedSt g st →
      unvisitedWeight g st < fuel → dfsNode g fuel u st path ≠ none) ∧
    (∀ (ns : List Nat) (st : Nat → Nat) (path : List Nat),
      (∀ v ∈ ns, v ∈ nodeKeys g) → (∀ x, st x ≤ 2) → ClosedSt g st →
      unvisitedWeight g st + ns.length < fuel →
      dfsList g fuel ns st path ≠ none) := by
  intro fuel
  induction fuel with
  | zero =>
    constructor
    · intro u st path _ _ _ _ hlt
      omega
    · intro ns st path _ _ _ hlt
      omega
  | succ fuel ih =>
    obtain ⟨ihN, ihL⟩ := ih
    constructor
    · intro u st path h0 hu hr hc hlt
      simp only [dfsNode]
      have hw := weight_visit hwf.1 hu h0
      have hlist : dfsList g fuel (edgesOf g u)
          (fun x => if x = u then 1 else st x) (path ++ [u]) ≠ none := by
        apply ihL
        · intro v hv
          exact (hasEdge_mem hwf (hv : v ∈ edgesOf g u)).2
        · exact range_mark hr u
        · exact closed_mark hc h0
        · omega
      match hd : dfsList g fuel (edgesOf g u)
          (fun x => if x = u then 1 else st x) (path ++ [u]) with
      | none => exact absurd hd hlist
      | some (true, st2, path2) => simp
      | some (false, st2, path2) => simp
    · intro ns st path hmem hr hc hlt
      match ns with
      | [] => simp [dfsList]
      | v :: vs =>
        simp only [dfsList]
        by_cases hv1 : st v = 1
        · rw [if_pos hv1]
          simp
        · rw [if_neg hv1]
          by_cases hv0 : st v = 0
          · rw [if_pos hv0]
            simp only [List.length_cons] at hlt
            have hnode : dfsNode g fuel v st path ≠ none := by
              apply ihN v st path hv0 (hmem v (by simp)) hr hc
              omega
            match hd : dfsNode g fuel v st path with
            | none => exact absurd hd hnode
            | some (true, stA, pathA) => simp
            | some (false, stA, pathA) =>
              obtain ⟨hpathA, hmonoA, hrangeA, hvisA, hvA, hclosedA⟩ :=
                (dfsFalse g fuel).1 v st path stA pathA hv0 hr hc hd
              apply ihL vs stA pathA (fun w hw => hmem w (by simp [hw]))
                hrangeA hclosedA
              have := weight_mono (g := g) hmonoA
              omega
          · rw [if_neg hv0]
            simp only [List.length_cons] at hlt
            exact ihL vs st path (fun w hw => hmem w (by simp [hw])) hr hc
              (by omega)

theorem loop_sound (g : DependencyGraph) (fuel : Nat) : ∀ (ks : List Nat)
    (st : Nat → Nat) (res : List String),
    (∀ x, st x ≤ 2) → ClosedSt g st → (∀ x, ¬ st x = 1) →
    detectCycleLoop g fuel ks st [] = some res →
    ∃ n, Relation.TransGen (hasEdge g) n n := by
  intro ks
  induction ks with
  | nil =>
    intro st res _ _ _ h
    simp [detectCycleLoop] at h
  | cons k ks ih =>
    intro st res hr hc h1 h
    simp only [detectCycleLoop] at h
    by_cases hk : st k = 0
    · rw [if_pos hk] at h
      match hd : dfsNode g fuel k st [] with
      | none => rw [hd] at h; exact absurd h (by simp)
      | some (true, st2, path2) =>
        exact (dfsTrue g fuel).1 k st [] st2 path2 hk hr hc
          (fun x => ⟨fun hx => absurd hx (h1 x), fun hx => by simp at hx⟩)
          List.chain'_nil (Or.inl rfl) hd
      | some (false, st2, path2) =>
        rw [hd] at h
        obtain ⟨hpath2, hmono2, hrange2, hvis2, hk2, hclosed2⟩ :=
          (dfsFalse g fuel).1 k st [] st2 path2 hk hr hc hd
        exact ih st2 res hrange2 hclosed2
          (fun x hx => h1 x ((hvis2 x).mp hx)) (hpath2 ▸ h)
    · rw [if_neg hk] at h
      exact ih st res hr hc h1 h

theorem loop_none (g : DependencyGraph) (hwf : graphWF g) (fuel : Nat) :
    ∀ (ks : List Nat) (st : Nat → Nat),
    (∀ x, st x ≤ 2) → ClosedSt g st → (∀ x, ¬ st x = 1) →
    (∀ k ∈ ks, k ∈ nodeKeys g) → unvisitedWeight g st < fuel →
    detectCycleLoop g fuel ks st [] = none →
    ∀ k ∈ ks, st k = 0 → ¬ Relation.TransGen (hasEdge g) k k := by
  intro ks
  induction ks with
  | nil =>
    intro st _ _ _ _ _ _ k hk
    simp at hk
  | cons k0 ks ih =>
    intro st hr hc h1 hmem hlt h k hk hk0 hcyc
    simp only [detectCycleLoop] at h
    by_cases hkk : st k0 = 0
    · rw [if_pos hkk] at h
      match hd : dfsNode g fuel k0 st [] with
      | none =>
        exact (dfsSuff g hwf fuel).1 k0 st [] hkk (hmem k0 (by simp)) hr hc
          hlt hd
      | some (true, st2, path2) =>
        rw [hd] at h
        exact absurd h (by simp)
      | some (false, st2, path2) =>
        rw [hd] at h
        obtain ⟨hpath2, hmono2, hrange2, hvis2, hk02, hclosed2⟩ :=
          (dfsFalse g fuel).1 k0 st [] st2 path2 hkk hr hc hd
        rcases List.mem_cons.mp hk with hkeq | hkmem
        · subst hkeq
          exact (dfsNC g fuel).1 k st [] st2 path2 hk0 hr hc hd k hk0 hk02 hcyc
        · by_cases hk2 : st2 k = 2
          · exact (dfsNC g fuel).1 k0 st [] st2 path2 hkk hr hc hd k hk0 hk2
              hcyc
          · have hne1 : ¬ st2 k = 1 := fun hx => h1 k ((hvis2 k).mp hx)
            have hk20 : st2 k = 0 := by
              have := hrange2 k
              omega
            exact ih st2 hrange2 hclosed2
              (fun x hx => h1 x ((hvis2 x).mp hx))
              (fun x hx => hmem x (by simp [hx]))
              (lt_of_le_of_lt (weight_mono hmono2) hlt)
              (hpath2 ▸ h) k hkmem hk20 hcyc
    · rw [if_neg hkk] at h
      rcases List.mem_cons.mp hk with hkeq | hkmem
      · exact absurd (hkeq ▸ hk0) hkk
      · exact ih st hr hc h1 (fun x hx => hmem x (by simp [hx])) hlt h k
          hkmem hk0 hcyc

theorem weight_initial (g : DependencyGraph) :
    unvisitedWeight g (fun _ => 0) < dfsFuel g := by
  unfold unvisitedWeight dfsFuel
  have hfil : ((nodeKeys g).filter fun k => (0 : Nat) == 0) = nodeKeys g :=
    List.filter_eq_self.mpr fun a _ => rfl
  rw [hfil]
  omega

/-! ## Claim C2: `DetectCycle` decides cycle existence -/

/-- C2: on a well-formed graph (distinct node keys, edges within the node
set), `DetectCycle` returns non-nil iff the provider→dependent edge relation
has a directed cycle — in particular a self-loop makes it non-nil, and on an
acyclic graph it returns nil. -/
theorem C2_detectCycle_iff_hasCycle (g : DependencyGraph)
    (hwf : graphWF g) : (detectCycle g).isSome ↔ hasCycle g := by
  constructor
  · intro h
    match hres : detectCycle g with
    | none => rw [hres] at h; simp at h
    | some res =>
      exact loop_sound g (dfsFuel g) (nodeKeys g) (fun _ => 0) res
        (fun x => Nat.zero_le 2) (fun x y hx => by simp at hx)
        (fun x => by simp) hres
  · intro hcyc
    by_contra h
    have hnone : detectCycle g = none := by
      match hres : detectCycle g with
      | some res => rw [hres] at h; simp at h
      | none => rfl
    obtain ⟨n, hn⟩ := hcyc
    have hnk : n ∈ nodeKeys g := by
      obtain ⟨w, hw, -⟩ := (Relation.TransGen.head'_iff).mp hn
      exact (hasEdge_mem hwf hw).1
    exact loop_none g hwf (dfsFuel g) (nodeKeys g) (fun _ => 0)
      (fun x => Nat.zero_le 2) (fun x y hx => by simp at hx)
      (fun x => by simp) (fun k hk => hk) (weight_initial g) hnone n hnk
      rfl hn

/-- Witness for C2: the demo graph's detector fires, so the theorem yields a
genuine directed cycle; and conversely its self-loop-free subgraph facts are
exercised through `decide` on the hypotheses. -/
theorem C2_witness : hasCycle cycleDemoGraph :=
  (C2_detectCycle_iff_hasCycle cycleDemoGraph
    (by unfold graphWF; decide)).mp (by decide)

/-! ## `TopologicalSort`: Kahn's algorithm (towards C1) -/

theorem sum_int_nonneg (l : List Int) (h : ∀ x ∈ l, 0 ≤ x) : 0 ≤ l.sum := by
  induction l with
  | nil => simp
  | cons a rest ih =>
    rw [List.sum_cons]
    have ha := h a (by simp)
    have hr := ih fun x hx => h x (List.mem_cons_of_mem _ hx)
    omega

theorem sum_int_nonneg_zero (l : List Int) (h : ∀ x ∈ l, 0 ≤ x)
    (hz : l.sum = 0) : ∀ x ∈ l, x = 0 := by
  induction l with
  | nil => simp
  | cons a rest ih =>
    rw [List.sum_cons] at hz
    have ha := h a (by simp)
    have hr := sum_int_nonneg rest fun x hx => h x (List.mem_cons_of_mem _ hx)
    intro x hx
    rcases List.mem_cons.mp hx with hx | hx
    · omega
    · exact ih (fun y hy => h y (List.mem_cons_of_mem _ hy)) (by omega) x hx

theorem sum_filter_or {α : Type} (f : α → Int) (p q : α → Bool)
    (hdisj : ∀ e, ¬(p e = true ∧ q e = true)) (es : List α) :
    ((es.filter fun e => p e || q e).map f).sum
      = ((es.filter p).map f).sum + ((es.filter q).map f).sum := by
  induction es with
  | nil => simp
  | cons e rest ih =>
    rw [List.filter_cons, List.filter_cons, List.filter_cons]
    cases hp : p e with
    | false =>
      cases hq : q e with
      | false => simpa [hp, hq] using ih
      | true =>
        simp [hp, hq, ih]
        try ring
    | true =>
      have hq : q e = false := by
        cases hqe : q e with
        | false => rfl
        | true => exact absurd ⟨hp, hqe⟩ (hdisj e)
      simp [hp, hq, ih]
      try ring

theorem lookup_count_eq_filter_sum {es : List (Nat × List Nat)}
    (hnd : (es.map fun e => e.1).Nodup) (s k : Nat) :
    ((lookupEdges es s).count k : Int)
      = ((es.filter fun e => e.1 = s).map fun e => (e.2.count k : Int)).sum := by
  induction es with
  | nil => simp [lookupEdges]
  | cons q rest ih =>
    match q with
    | (qk, ql) =>
      simp only [List.map_cons, List.nodup_cons] at hnd
      rw [lookupEdges_cons, List.filter_cons]
      by_cases hq : qk = s
      · rw [if_pos hq, if_pos (by simpa using hq)]
        have hrest : rest.filter (fun e => e.1 = s) = [] := by
          rw [List.filter_eq_nil_iff]
          intro e he hdec
          simp only [decide_eq_true_eq] at hdec
          exact hnd.1 ((hq.trans hdec.symm) ▸
            List.mem_map_of_mem (fun p => p.1) he)
        rw [hrest]
        simp
      · rw [if_neg hq, if_neg (by simpa using hq)]
        exact ih hnd.2

theorem flatMap_count_eq_filter_sum {es : List (Nat × List Nat)}
    (hnd : (es.map fun e => e.1).Nodup) (k : Nat) : ∀ cs : List Nat,
    cs.Nodup →
    (((cs.flatMap fun s => lookupEdges es s).count k : Nat) : Int)
      = ((es.filter fun e => e.1 ∈ cs).map fun e => (e.2.count k : Int)).sum := by
  intro cs
  induction cs with
  | nil =>
    intro _
    simp
  | cons s rest ih =>
    intro hcsnd
    simp only [List.nodup_cons] at hcsnd
    rw [List.flatMap_cons, List.count_append]
    push_cast
    rw [lookup_count_eq_filter_sum hnd s k, ih hcsnd.2]
    have hsplit := sum_filter_or (fun e : Nat × List Nat => (e.2.count k : Int))
      (fun e => e.1 = s) (fun e => e.1 ∈ rest)
      (by
        intro e ⟨h1, h2⟩
        simp only [decide_eq_true_eq] at h1 h2
        exact hcsnd.1 (h1 ▸ h2)) es
    have hcong : es.filter (fun e => e.1 ∈ s :: rest)
        = es.filter fun e => (e.1 = s : Bool) || (e.1 ∈ rest : Bool) := by
      apply List.filter_congr
      intro e _
      simp [List.mem_cons]
    rw [hcong, hsplit]

theorem sum_filter_mask {α : Type} (f : α → Int) (m p c : α → Bool)
    (hrel : ∀ e, m e = true ↔ (p e = true ∧ c e = false))
    (himp : ∀ e, c e = true → p e = true) (es : List α) :
    ((es.filter m).map f).sum
      = ((es.filter p).map f).sum - ((es.filter c).map f).sum := by
  induction es with
  | nil => simp
  | cons e rest ih =>
    rw [List.filter_cons, List.filter_cons, List.filter_cons]
    by_cases hc : c e = true
    · have hp := himp e hc
      have hm : m e = false := by
        cases hx : m e with
        | false => rfl
        | true => exact absurd ((hrel e).mp hx).2 (by simp [hc])
      rw [if_neg (by simp [hm]), if_pos hp, if_pos hc]
      simp only [List.map_cons, List.sum_cons, ih]
      ring
    · have hcf : c e = false := by
        cases hx : c e with
        | false => rfl
        | true => exact absurd hx hc
      by_cases hp : p e = true
      · have hm : m e = true := (hrel e).mpr ⟨hp, hcf⟩
        rw [if_pos hm, if_pos hp, if_neg (by simp [hcf])]
        simp only [List.map_cons, List.sum_cons, ih]
        ring
      · have hpf : p e = false := by
          cases hx : p e with
          | false => rfl
          | true => exact absurd hx hp
        have hm : m e = false := by
          cases hx : m e with
          | false => rfl
          | true => exact absurd ((hrel e).mp hx).1 (by simp [hpf])
        rw [if_neg (by simp [hm]), if_neg (by simp [hpf]),
          if_neg (by simp [hcf])]
        exact ih

theorem filter_flip_one {keys : List Nat} (hnd : keys.Nodup) {s : Nat}
    (hs : s ∈ keys) {q : Nat → Bool} (hq : q s = false) :
    (keys.filter fun x => if x = s then true else q x).length
      = (keys.filter q).length + 1 := by
  induction keys with
  | nil => cases hs
  | cons a rest ih =>
    simp only [List.nodup_cons] at hnd
    rw [List.filter_cons, List.filter_cons]
    by_cases ha : a = s
    · subst ha
      rw [if_pos (by simp), if_neg (by simp [hq])]
      have hcong : rest.filter (fun x => if x = a then true else q x)
          = rest.filter q := by
        apply List.filter_congr
        intro x hx
        have hxa : ¬ (x = a) := fun h => hnd.1 (h ▸ hx)
        simp [hxa]
      rw [hcong]
      simp
    · have hs' : s ∈ rest := by
        rcases List.mem_cons.mp hs with h | h
        · exact absurd h.symm ha
        · exact h
      rw [show (if a = s then true else q a) = q a by simp [ha]]
      by_cases hqa : q a = true
      · rw [if_pos hqa, if_pos hqa]
        simp only [List.length_cons, ih hnd.2 hs']
      · rw [if_neg hqa, if_neg hqa]
        exact ih hnd.2 hs'

theorem pc_update {keys : List Nat} (hnd : keys.Nodup) (pr : Nat → Bool) :
    ∀ cs : List Nat, cs.Nodup → (∀ x ∈ cs, x ∈ keys ∧ pr x = false) →
    (keys.filter fun x => if x ∈ cs then true else pr x).length
      = (keys.filter pr).length + cs.length := by
  intro cs
  induction cs with
  | nil =>
    intro _ _
    have hcong : (keys.filter fun x => if x ∈ ([] : List Nat) then true
        else pr x) = keys.filter pr := by
      apply List.filter_congr
      intro x _
      simp
    rw [hcong]
    simp
  | cons s cs' ih =>
    intro hcsnd hmem
    simp only [List.nodup_cons] at hcsnd
    have hcong : (keys.filter fun x => if x ∈ s :: cs' then true else pr x)
        = keys.filter fun x => if x = s then true
            else (if x ∈ cs' then true else pr x) := by
      apply List.filter_congr
      intro x _
      by_cases h1 : x = s
      · simp [h1]
      · by_cases h2 : x ∈ cs' <;> simp [h1, h2, List.mem_cons]
    rw [hcong]
    have hqs : (if s ∈ cs' then true else pr s) = false := by
      rw [if_neg hcsnd.1]
      exact (hmem s (by simp)).2
    rw [filter_flip_one hnd (hmem s (by simp)).1 hqs]
    rw [ih hcsnd.2 fun x hx => hmem x (List.mem_cons_of_mem _ hx)]
    simp only [List.length_cons]
    omega

theorem acyclic_min (g : DependencyGraph) (hacyc : ¬ hasCycle g)
    (S : List Nat) (hne : S ≠ []) (hsub : ∀ s ∈ S, s ∈ nodeKeys g) :
    ∃ m ∈ S, ∀ s ∈ S, ¬ hasEdge g s m := by
  haveI hfin : Fintype {x : Nat // x ∈ nodeKeys g} :=
    Fintype.subtype (nodeKeys g).toFinset (by simp)
  haveI : Finite {x : Nat // x ∈ nodeKeys g} := Finite.of_fintype _
  haveI hirr : IsIrrefl {x : Nat // x ∈ nodeKeys g}
      (Relation.TransGen fun a b => hasEdge g a.1 b.1) := by
    constructor
    intro a ha
    exact hacyc ⟨a.1, Relation.TransGen.lift Subtype.val (fun _ _ h => h) ha⟩
  have hwfT : WellFounded
      (Relation.TransGen fun a b : {x : Nat // x ∈ nodeKeys g} =>
        hasEdge g a.1 b.1) :=
    Finite.wellFounded_of_trans_of_irrefl _
  obtain ⟨m0, hm0⟩ : ∃ m0, m0 ∈ S := by
    cases S with
    | nil => exact absurd rfl hne
    | cons a t => exact ⟨a, by simp⟩
  obtain ⟨m, hmS, hmin⟩ := hwfT.has_min {x | x.1 ∈ S} ⟨⟨m0, hsub m0 hm0⟩, hm0⟩
  refine ⟨m.1, hmS, ?_⟩
  intro s hs hedge
  exact hmin ⟨s, hsub s hs⟩ hs (Relation.TransGen.single hedge)

theorem acyclic_of_increasing (g : DependencyGraph) (meas : Nat → Nat)
    (h : ∀ a b, hasEdge g a b → meas a < meas b) : ¬ hasCycle g := by
  rintro ⟨n, hn⟩
  have hlt : Relation.TransGen (fun a b : Nat => a < b) (meas n) (meas n) :=
    Relation.TransGen.lift meas h hn
  rw [Relation.transGen_eq_self
    (by intro a b c hab hbc; exact Nat.lt_trans hab hbc)] at hlt
  exact Nat.lt_irrefl _ hlt

theorem lookupEdges_entry {es : List (Nat × List Nat)} {s k : Nat}
    (h : k ∈ lookupEdges es s) : (s, lookupEdges es s) ∈ es := by
  induction es with
  | nil => simp [lookupEdges] at h
  | cons q rest ih =>
    match q with
    | (qk, ql) =>
      rw [lookupEdges_cons] at h ⊢
      by_cases hq : qk = s
      · subst hq
        rw [if_pos rfl] at h ⊢
        exact List.mem_cons_self _ _
      · rw [if_neg hq] at h ⊢
        exact List.mem_cons_of_mem _ (ih h)

theorem mem_flatten_index {k : Nat} {acc : List (List Nat)}
    (h : k ∈ acc.flatten) :
    ∃ (j : Nat) (tj : List Nat), acc[j]? = some tj ∧ k ∈ tj := by
  rw [List.mem_flatten] at h
  obtain ⟨l, hl, hk⟩ := h
  obtain ⟨j, hj⟩ := List.mem_iff_getElem?.mp hl
  exact ⟨j, l, hj, hk⟩

theorem remInDeg_ne_zero {g : DependencyGraph} {pr : Nat → Bool} {s t : Nat}
    (hedge : hasEdge g s t) (hpr : pr s = false) :
    ¬ remInDeg g pr t = 0 := by
  intro h0
  have hentry : (s, lookupEdges g.edges s) ∈ g.edges := lookupEdges_entry hedge
  have hfe : (s, lookupEdges g.edges s) ∈ g.edges.filter fun e => !pr e.1 :=
    List.mem_filter_of_mem hentry (by simp [hpr])
  have hterm : (((lookupEdges g.edges s).count t : Nat) : Int) ∈
      (g.edges.filter fun e => !pr e.1).map fun e => (e.2.count t : Int) :=
    List.mem_map_of_mem _ hfe
  have hall := sum_int_nonneg_zero _ (by
    intro x hx
    obtain ⟨e, _, hxe⟩ := List.mem_map.mp hx
    rw [← hxe]
    exact Int.natCast_nonneg _) h0 _ hterm
  have hc : (lookupEdges g.edges s).count t = 0 := by exact_mod_cast hall
  rw [List.count_eq_zero] at hc
  exact hc hedge

theorem sum_int_all_zero (l : List Int) (h : ∀ x ∈ l, x = 0) : l.sum = 0 := by
  induction l with
  | nil => rfl
  | cons a rest ih =>
    rw [List.sum_cons, h a (by simp),
      ih fun x hx => h x (List.mem_cons_of_mem _ hx)]
    rfl

theorem filter_not_length (pr : Nat → Bool) (l : List Nat) :
    (l.filter pr).length + (l.filter fun x => !pr x).length = l.length := by
  induction l with
  | nil => rfl
  | cons a r ihr =>
    rw [List.filter_cons, List.filter_cons]
    cases hpa : pr a with
    | false =>
      simp only [hpa, Bool.not_false, if_true, if_false, List.length_cons]
      simp
      omega
    | true =>
      simp only [hpa, Bool.not_true, if_true, if_false, List.length_cons]
      simp
      omega

theorem kahn_ok (g : DependencyGraph) (hknd : (nodeKeys g).Nodup)
    (hednd : (g.edges.map fun e => e.1).Nodup)
    (hendp : ∀ e ∈ g.edges, ∀ b ∈ e.2, e.1 ∈ nodeKeys g ∧ b ∈ nodeKeys g)
    (hacyc : ¬ hasCycle g) : ∀ fuel : Nat,
    ∀ (pr : Nat → Bool) (deg : Nat → Int) (acc : List (List Nat)),
    (∀ k, deg k = remInDeg g pr k) →
    (∀ k, pr k = true ↔ k ∈ acc.flatten) →
    acc.flatten.Nodup →
    (∀ k ∈ acc.flatten, k ∈ nodeKeys g) →
    (∀ s t, hasEdge g s t → ∀ (i : Nat) (ti : List Nat),
      acc[i]? = some ti → t ∈ ti →
      ∃ (j : Nat) (tj : List Nat), j < i ∧ acc[j]? = some tj ∧ s ∈ tj) →
    g.nodes.length < fuel + processedCount (nodeKeys g) pr →
    ∃ stages, kahnLoop g fuel pr deg acc = .ok stages ∧
      (∃ rest, stages = acc ++ rest ∧
        (processedCount (nodeKeys g) pr < g.nodes.length →
          rest.head? =
            some ((nodeKeys g).filter fun k => !pr k && deg k == 0))) ∧
      stages.flatten.Nodup ∧
      (∀ k, k ∈ stages.flatten ↔ k ∈ nodeKeys g) ∧
      (∀ s t, hasEdge g s t → ∀ (i : Nat) (ti : List Nat),
        stages[i]? = some ti → t ∈ ti →
        ∃ (j : Nat) (tj : List Nat), j < i ∧ stages[j]? = some tj ∧ s ∈ tj) := by
  have hlen : (nodeKeys g).length = g.nodes.length := by
    simp [nodeKeys]
  intro fuel
  induction fuel with
  | zero =>
    intro pr deg acc _ _ _ _ _ hfuel
    have hle := List.length_filter_le pr (nodeKeys g)
    simp only [processedCount] at hfuel
    omega
  | succ fuel ih =>
    intro pr deg acc hdeg hpr hflnd hsub hord hfuel
    by_cases hpc : processedCount (nodeKeys g) pr < g.nodes.length
    · have hSne : (nodeKeys g).filter (fun x => !pr x) ≠ [] := by
        intro hnil
        have h0 : ((nodeKeys g).filter (fun x => !pr x)).length = 0 := by
          rw [hnil]
          rfl
        have hsp := filter_not_length pr (nodeKeys g)
        simp only [processedCount] at hpc
        omega
      obtain ⟨m, hmS, hmin⟩ := acyclic_min g hacyc _ hSne
        (fun x hx => (List.mem_filter.mp hx).1)
      have hmk : m ∈ nodeKeys g := (List.mem_filter.mp hmS).1
      have hmp : pr m = false := by
        have := (List.mem_filter.mp hmS).2
        simpa using this
      have hdm : deg m = 0 := by
        rw [hdeg m]
        unfold remInDeg
        apply sum_int_all_zero
        intro x hx
        obtain ⟨e, he, hxe⟩ := List.mem_map.mp hx
        obtain ⟨heq, hpre⟩ := List.mem_filter.mp he
        rw [← hxe]
        have hcnt : e.2.count m = 0 := by
          rw [List.count_eq_zero]
          intro hmem
          have hlk : lookupEdges g.edges e.1 = e.2 := lookupEdges_self hednd e heq
          have hedge : hasEdge g e.1 m := by
            unfold hasEdge edgesOf
            rw [hlk]
            exact hmem
          have hprs : pr e.1 = false := by simpa using hpre
          have he1k : e.1 ∈ nodeKeys g := (hendp e heq m hmem).1
          exact hmin e.1 (List.mem_filter.mpr ⟨he1k, by simp [hprs]⟩) hedge
        rw [hcnt]
        rfl
      have hmcs : m ∈ (nodeKeys g).filter fun k => !pr k && deg k == 0 :=
        List.mem_filter.mpr ⟨hmk, by simp [hmp, hdm]⟩
      match hm : (nodeKeys g).filter fun k => !pr k && deg k == 0 with
      | [] =>
        rw [hm] at hmcs
        cases hmcs
      | s :: stage =>
        have hstep : kahnLoop g (fuel + 1) pr deg acc
            = kahnLoop g fuel
                (fun x => if x ∈ s :: stage then true else pr x)
                (decAll deg ((s :: stage).flatMap (edgesOf g)))
                (acc ++ [s :: stage]) := by
          simp only [kahnLoop]
          rw [if_pos hpc, hm]
        have hcsfacts : ∀ x ∈ s :: stage,
            x ∈ nodeKeys g ∧ pr x = false ∧ deg x = 0 := by
          intro x hx
          rw [← hm] at hx
          obtain ⟨hk, hcond⟩ := List.mem_filter.mp hx
          simp only [Bool.and_eq_true, Bool.not_eq_true', beq_iff_eq] at hcond
          exact ⟨hk, hcond.1, hcond.2⟩
        have hcsnd : (s :: stage).Nodup := by
          rw [← hm]
          exact hknd.filter _
        have h1 : ∀ k, decAll deg ((s :: stage).flatMap (edgesOf g)) k
            = remInDeg g (fun x => if x ∈ s :: stage then true else pr x) k := by
          intro k
          have hA : ((((s :: stage).flatMap (edgesOf g)).count k : Nat) : Int)
              = ((g.edges.filter fun e => e.1 ∈ s :: stage).map
                  fun e => (e.2.count k : Int)).sum :=
            flatMap_count_eq_filter_sum hednd k (s :: stage) hcsnd
          have hmask := sum_filter_mask
            (fun e : Nat × List Nat => (e.2.count k : Int))
            (fun e => !(if e.1 ∈ s :: stage then true else pr e.1))
            (fun e => !pr e.1)
            (fun e => e.1 ∈ s :: stage)
            (by
              intro e
              by_cases hmem : e.1 ∈ s :: stage
              · simp [hmem, (hcsfacts e.1 hmem).2.1]
              · simp [hmem])
            (by
              intro e hedec
              have hmem : e.1 ∈ s :: stage := by simpa using hedec
              simp [(hcsfacts e.1 hmem).2.1])
            g.edges
          show deg k - (((s :: stage).flatMap (edgesOf g)).count k : Int) = _
          unfold remInDeg
          rw [hmask, ← hA, hdeg k]
          rfl
        have h2 : ∀ k,
            (fun x => if x ∈ s :: stage then true else pr x) k = true
              ↔ k ∈ (acc ++ [s :: stage]).flatten := by
          intro k
          simp only [List.flatten_append, List.flatten_cons, List.flatten_nil,
            List.append_nil, List.mem_append]
          by_cases hk : k ∈ s :: stage
          · simp [hk]
          · simp [hk, hpr k]
        have hdisj : acc.flatten.Disjoint (s :: stage) := by
          intro x hx1 hx2
          have ht := (hpr x).mpr hx1
          have hf := (hcsfacts x hx2).2.1
          rw [ht] at hf
          cases hf
        have h3 : (acc ++ [s :: stage]).flatten.Nodup := by
          simp only [List.flatten_append, List.flatten_cons, List.flatten_nil,
            List.append_nil]
          exact hflnd.append hcsnd hdisj
        have h4 : ∀ k ∈ (acc ++ [s :: stage]).flatten, k ∈ nodeKeys g := by
          intro k hk
          simp only [List.flatten_append, List.flatten_cons, List.flatten_nil,
            List.append_nil, List.mem_append] at hk
          rcases hk with hk | hk
          · exact hsub k hk
          · exact (hcsfacts k hk).1
        have h5 : ∀ u t, hasEdge g u t → ∀ (i : Nat) (ti : List Nat),
            (acc ++ [s :: stage])[i]? = some ti → t ∈ ti →
            ∃ (j : Nat) (tj : List Nat), j < i ∧
              (acc ++ [s :: stage])[j]? = some tj ∧ u ∈ tj := by
          intro u t hedge i ti hti htmem
          by_cases hi : i < acc.length
          · rw [List.getElem?_append_left hi] at hti
            obtain ⟨j, tj, hj, hjq, hsm⟩ := hord u t hedge i ti hti htmem
            exact ⟨j, tj, hj,
              by rw [List.getElem?_append_left (Nat.lt_trans hj hi)]; exact hjq,
              hsm⟩
          · have hlenacc : acc.length ≤ i := Nat.le_of_not_lt hi
            rw [List.getElem?_append_right hlenacc] at hti
            cases hd : i - acc.length with
            | zero =>
              rw [hd] at hti
              simp only [List.getElem?_cons_zero, Option.some_inj] at hti
              obtain ⟨-, hprt, hdegt⟩ := hcsfacts t (hti ▸ htmem)
              have hps : pr u = true := by
                cases hx : pr u with
                | true => rfl
                | false =>
                  exact absurd (by rw [← hdeg t]; exact hdegt)
                    (remInDeg_ne_zero hedge hx)
              have hsf : u ∈ acc.flatten := (hpr u).mp hps
              obtain ⟨j, tj, hjq, hsm⟩ := mem_flatten_index hsf
              obtain ⟨hjlen, -⟩ := List.getElem?_eq_some.mp hjq
              refine ⟨j, tj, by omega, ?_, hsm⟩
              rw [List.getElem?_append_left hjlen]
              exact hjq
            | succ d =>
              rw [hd] at hti
              simp at hti
        have h6 : g.nodes.length < fuel
            + processedCount (nodeKeys g)
                (fun x => if x ∈ s :: stage then true else pr x) := by
          have hup : processedCount (nodeKeys g)
              (fun x => if x ∈ s :: stage then true else pr x)
              = processedCount (nodeKeys g) pr + (s :: stage).length := by
            simp only [processedCount]
            exact pc_update hknd pr (s :: stage) hcsnd
              fun x hx => ⟨(hcsfacts x hx).1, (hcsfacts x hx).2.1⟩
          rw [hup]
          simp only [List.length_cons]
          omega
        obtain ⟨stages, hrun, ⟨rest, hsteq, -⟩, hflnd2, hcov, hord2⟩ :=
          ih (fun x => if x ∈ s :: stage then true else pr x)
            (decAll deg ((s :: stage).flatMap (edgesOf g)))
            (acc ++ [s :: stage]) h1 h2 h3 h4 h5 h6
        refine ⟨stages, ?_, ⟨(s :: stage) :: rest, ?_, ?_⟩, hflnd2, hcov,
          hord2⟩
        · rw [hstep]
          exact hrun
        · rw [hsteq, List.append_assoc]
          rfl
        · intro _
          rfl
    · have hstep : kahnLoop g (fuel + 1) pr deg acc = .ok acc := by
        simp only [kahnLoop]
        rw [if_neg hpc]
      have hallproc : ∀ k ∈ nodeKeys g, pr k = true := by
        have hle := List.length_filter_le pr (nodeKeys g)
        simp only [processedCount] at hpc
        have heq : ((nodeKeys g).filter pr).length = (nodeKeys g).length := by
          omega
        exact fun k hk => List.filter_length_eq_length.mp heq k hk
      refine ⟨acc, hstep,
        ⟨[], (List.append_nil acc).symm, fun hlt => absurd hlt hpc⟩, hflnd,
        ?_, hord⟩
      intro k
      constructor
      · exact hsub k
      · intro hk
        exact (hpr k).mp (hallproc k hk)

theorem build_endpoints {deps : List (Nat × List String)}
    {avail : List (String × Nat)} {names : List (Nat × String)}
    {g : DependencyGraph}
    (hb : buildDependencyGraph deps avail names = .ok g)
    (hf : ∀ e ∈ deps, e.1 ∈ names.map fun p => p.1)
    (havail : ∀ e ∈ avail, e.2 ∈ names.map fun p => p.1) :
    ∀ e ∈ g.edges, ∀ b ∈ e.2, e.1 ∈ nodeKeys g ∧ b ∈ nodeKeys g := by
  obtain ⟨hkeys, hindeg, hintot, hcount, hednd⟩ := build_ok hb hf
  intro e he b hb'
  have hlk : lookupEdges g.edges e.1 = e.2 := lookupEdges_self hednd e he
  have hcnt : 0 < (lookupEdges g.edges e.1).count b := by
    rw [hlk]
    exact List.count_pos_iff.mpr hb'
  rw [hcount e.1 b] at hcnt
  have hne : (depsVars deps b).filter
      (fun v => lookupAvail avail v = some e.1) ≠ [] := by
    intro h0
    rw [h0] at hcnt
    exact absurd hcnt (by simp)
  obtain ⟨v, hv⟩ := List.exists_mem_of_ne_nil _ hne
  have hvf := List.mem_filter.mp hv
  constructor
  · have hla : lookupAvail avail v = some e.1 := by simpa using hvf.2
    have hmem := lookupAvail_mem hla
    rw [hkeys]
    exact havail _ hmem
  · have hnev : depsVars deps b ≠ [] := List.ne_nil_of_mem hvf.1
    have hbk : b ∈ deps.map fun d => d.1 := by
      by_contra hnb
      exact hnev (depsVars_of_not_mem hnb)
    obtain ⟨d, hd, hdb⟩ := List.mem_map.mp hbk
    rw [hkeys, ← hdb]
    exact hf d hd

/-- C1: on any dependency/declaration set whose provider→dependent graph is
acyclic (with dependencies and declarations ranging over the declared fields,
and distinct field indices), `TopologicalSort` succeeds and returns an
ordered partition of all field indices: the stages' contents are disjoint and
exactly cover the fields, stage 0 is exactly the fields of zero in-degree,
and every field referencing a variable sits in a stage of strictly greater
index than the field providing that variable. -/
theorem C1_topologicalSort_staged {deps : List (Nat × List String)}
    {avail : List (String × Nat)} {names : List (Nat × String)}
    {g : DependencyGraph}
    (hb : buildDependencyGraph deps avail names = .ok g)
    (hf : ∀ e ∈ deps, e.1 ∈ names.map fun p => p.1)
    (havail : ∀ e ∈ avail, e.2 ∈ names.map fun p => p.1)
    (hknodup : (names.map fun p => p.1).Nodup)
    (hacyc : ¬ hasCycle g) :
    ∃ stages, topologicalSort g = .ok stages ∧
      stages.flatten.Nodup ∧
      (∀ k, k ∈ stages.flatten ↔ k ∈ names.map fun p => p.1) ∧
      (∀ s0, stages.head? = some s0 →
        ∀ k, k ∈ s0 ↔ (k ∈ names.map fun p => p.1) ∧ inDegreeOf g k = 0) ∧
      (∀ f vars v p, (f, vars) ∈ deps → v ∈ vars →
        lookupAvail avail v = some p →
        ∀ (i : Nat) (ti : List Nat), stages[i]? = some ti → f ∈ ti →
        ∃ (j : Nat) (tj : List Nat), j < i ∧ stages[j]? = some tj ∧ p ∈ tj) := by
  obtain ⟨hkeys, hindeg, hintot, hcount, hednd⟩ := build_ok hb hf
  have hknd : (nodeKeys g).Nodup := by
    rw [hkeys]
    exact hknodup
  have hendp := build_endpoints hb hf havail
  have hnone : detectCycle g = none := by
    match hres : detectCycle g with
    | none => rfl
    | some res =>
      exact absurd (loop_sound g (dfsFuel g) (nodeKeys g) (fun _ => 0) res
        (fun x => Nat.zero_le 2) (fun x y hx => by simp at hx)
        (fun x => by simp) hres) hacyc
  have h1 : ∀ k, (fun k => (inDegreeOf g k : Int)) k
      = remInDeg g (fun _ => false) k := by
    intro k
    have hid : inDegreeOf g k = inEdgeTotal g.edges k :=
      (hindeg k).trans (hintot k).symm
    show ((inDegreeOf g k : Nat) : Int) = _
    rw [hid]
    unfold inEdgeTotal remInDeg
    rw [Nat.cast_list_sum, List.map_map]
    congr 1
    rw [show (g.edges.filter fun e => !(fun _ : Nat => false) e.1)
      = g.edges from by simp]
    rfl
  have h2 : ∀ k, (fun _ : Nat => false) k = true
      ↔ k ∈ ([] : List (List Nat)).flatten := by
    simp
  have h3 : ([] : List (List Nat)).flatten.Nodup := by simp
  have h4 : ∀ k ∈ ([] : List (List Nat)).flatten, k ∈ nodeKeys g := by simp
  have h5 : ∀ s t, hasEdge g s t → ∀ (i : Nat) (ti : List Nat),
      ([] : List (List Nat))[i]? = some ti → t ∈ ti →
      ∃ (j : Nat) (tj : List Nat), j < i ∧
        ([] : List (List Nat))[j]? = some tj ∧ s ∈ tj := by
    intro s t _ i ti hti _
    simp at hti
  have h6 : g.nodes.length < (g.nodes.length + 1)
      + processedCount (nodeKeys g) (fun _ => false) := by
    omega
  obtain ⟨stages, hrun, ⟨rest, hsteq, hhead⟩, hflnd, hcov, hordS⟩ :=
    kahn_ok g hknd hednd hendp hacyc (g.nodes.length + 1) (fun _ => false)
      (fun k => (inDegreeOf g k : Int)) [] h1 h2 h3 h4 h5 h6
  have htop : topologicalSort g = .ok stages := by
    simp only [topologicalSort, hnone, hrun]
  refine ⟨stages, htop, hflnd, ?_, ?_, ?_⟩
  · intro k
    rw [← hkeys]
    exact hcov k
  · intro s0 hs0 k
    by_cases hzero : processedCount (nodeKeys g) (fun _ => false)
        < g.nodes.length
    · have hh := hhead hzero
      rw [hsteq] at hs0
      simp only [List.nil_append] at hs0
      rw [hs0] at hh
      have hs0eq := Option.some_inj.mp hh
      subst hs0eq
      constructor
      · intro hk
        obtain ⟨hk1, hk2⟩ := List.mem_filter.mp hk
        simp only [Bool.not_false, Bool.true_and, beq_iff_eq,
          Nat.cast_eq_zero] at hk2
        exact ⟨by rw [← hkeys]; exact hk1, hk2⟩
      · rintro ⟨hk1, hk2⟩
        refine List.mem_filter.mpr ⟨by rw [hkeys]; exact hk1, ?_⟩
        simp [hk2]
    · have hempty : kahnLoop g (g.nodes.length + 1) (fun _ => false)
          (fun k => (inDegreeOf g k : Int)) [] = .ok [] := by
        simp only [kahnLoop]
        rw [if_neg hzero]
      rw [hempty] at hrun
      injection hrun with hrun'
      rw [← hrun'] at hs0
      simp at hs0
  · intro f vars v p hfv hvv hla i ti hti hfti
    have hvd : v ∈ depsVars deps f := by
      unfold depsVars
      rw [List.mem_flatMap]
      exact ⟨(f, vars), List.mem_filter.mpr ⟨hfv, by simp⟩, hvv⟩
    have hcnt : 0 < (lookupEdges g.edges p).count f := by
      rw [hcount p f]
      have hvm : v ∈ (depsVars deps f).filter
          fun w => lookupAvail avail w = some p :=
        List.mem_filter.mpr ⟨hvd, by simp [hla]⟩
      exact List.length_pos.mpr (List.ne_nil_of_mem hvm)
    have hedge : hasEdge g p f := by
      unfold hasEdge edgesOf
      exact List.count_pos_iff.mp hcnt
    exact hordS p f hedge i ti hti hfti

/-- Witness for C1: two fields `A` (index 0, declaring variable `a`) and `B`
(index 1, referencing `a`); the built graph has the single edge `0→1`, is
acyclic because edges strictly increase the index, and the theorem applies. -/
theorem C1_witness :
    ∃ stages,
      topologicalSort
          ⟨[(0, ⟨"A", 0⟩), (1, ⟨"B", 1⟩)], [(0, [1])]⟩ = .ok stages ∧
      stages.flatten.Nodup ∧
      (∀ k, k ∈ stages.flatten ↔
        k ∈ List.map (fun p => p.1) [(0, "A"), (1, "B")]) ∧
      (∀ s0, stages.head? = some s0 →
        ∀ k, k ∈ s0 ↔ (k ∈ List.map (fun p => p.1) [(0, "A"), (1, "B")]) ∧
          inDegreeOf ⟨[(0, ⟨"A", 0⟩), (1, ⟨"B", 1⟩)], [(0, [1])]⟩ k = 0) ∧
      (∀ f vars v p, (f, vars) ∈ [(1, ["a"])] → v ∈ vars →
        lookupAvail [("a", 0)] v = some p →
        ∀ (i : Nat) (ti : List Nat), stages[i]? = some ti → f ∈ ti →
        ∃ (j : Nat) (tj : List Nat), j < i ∧ stages[j]? = some tj ∧ p ∈ tj) :=
  C1_topologicalSort_staged
    (by rfl)
    (by decide)
    (by decide)
    (by decide)
    (acyclic_of_increasing _ (fun x => x) (by
      intro a b hbe
      unfold hasEdge edgesOf at hbe
      rw [lookupEdges_cons] at hbe
      by_cases h : (0 : Nat) = a
      · rw [if_pos h] at hbe
        have hb1 : b = 1 := by simpa using hbe
        show a < b
        omega
      · rw [if_neg h] at hbe
        simp [lookupEdges] at hbe))

/-! ## `Analyze` (towards C4) -/

theorem afLookup_cons (q : String) (l : List String)
    (rest : List (String × List String)) (v : String) :
    afLookup ((q, l) :: rest) v = if q = v then l else afLookup rest v := by
  by_cases h : q = v <;> simp [afLookup, List.find?, h]

theorem afAppend_cons (q : String) (l : List String)
    (rest : List (String × List String)) (v0 n0 : String) :
    afAppend ((q, l) :: rest) v0 n0 =
      if q = v0 then (v0, l ++ [n0]) :: rest
      else (q, l) :: afAppend rest v0 n0 := by
  by_cases h : q = v0 <;> simp [afAppend, h]

theorem afLookup_append (af : List (String × List String)) (v0 n0 v : String) :
    afLookup (afAppend af v0 n0) v =
      if v = v0 then afLookup af v ++ [n0] else afLookup af v := by
  induction af with
  | nil =>
    by_cases hp : v = v0
    · subst hp
      simp [afAppend, afLookup]
    · have hq : ¬ (v0 = v) := fun h => hp h.symm
      simp [afAppend, afLookup, List.find?, decide_eq_false hq, hp]
  | cons e rest ih =>
    match e with
    | (q, l) =>
      rw [afAppend_cons]
      by_cases hq : q = v0
      · rw [if_pos hq]
        by_cases hp : v = v0
        · subst hp hq
          rw [afLookup_cons, afLookup_cons, if_pos rfl, if_pos rfl]
          rw [if_pos rfl]
        · have h1 : ¬ (v0 = v) := fun h => hp h.symm
          have h2 : ¬ (q = v) := fun h => hp (h.symm.trans hq)
          rw [afLookup_cons, afLookup_cons, if_neg h1, if_neg h2, if_neg hp]
      · rw [if_neg hq, afLookup_cons, afLookup_cons]
        by_cases hqp : q = v
        · rw [if_pos hqp, if_pos hqp]
          have hp : ¬ (v = v0) := fun h => hq (hqp.trans h)
          rw [if_neg hp]
        · rw [if_neg hqp, if_neg hqp, ih]

theorem afAppend_keys (af : List (String × List String)) (v0 n0 : String) :
    (afAppend af v0 n0).map (fun e => e.1) =
      if v0 ∈ af.map (fun e => e.1) then af.map (fun e => e.1)
      else af.map (fun e => e.1) ++ [v0] := by
  induction af with
  | nil => simp [afAppend]
  | cons e rest ih =>
    match e with
    | (q, l) =>
      rw [afAppend_cons]
      by_cases hq : q = v0
      · rw [if_pos hq]
        have : v0 ∈ ((q, l) :: rest).map (fun e => e.1) := by
          simp [hq.symm]
        rw [if_pos this]
        simp [hq]
      · rw [if_neg hq]
        by_cases hmem : v0 ∈ rest.map (fun e => e.1)
        · have : v0 ∈ ((q, l) :: rest).map (fun e => e.1) := by
            simp [hmem]
          rw [if_pos this]
          simp only [List.map_cons, ih, if_pos hmem]
        · have : ¬ v0 ∈ ((q, l) :: rest).map (fun e => e.1) := by
            simp only [List.map_cons, List.mem_cons]
            push_neg
            exact ⟨fun h => hq h.symm, hmem⟩
          rw [if_neg this]
          simp only [List.map_cons, ih, if_neg hmem]
          simp

theorem afAppend_keys_nodup {af : List (String × List String)}
    (v0 n0 : String) (h : (af.map (fun e => e.1)).Nodup) :
    ((afAppend af v0 n0).map (fun e => e.1)).Nodup := by
  rw [afAppend_keys]
  by_cases hmem : v0 ∈ af.map (fun e => e.1)
  · rwa [if_pos hmem]
  · rw [if_neg hmem]
    simp only [List.nodup_append, List.nodup_singleton]
    exact ⟨h, by simp, by simpa using hmem⟩

theorem afLookup_self {af : List (String × List String)}
    (hn : (af.map fun e => e.1).Nodup) :
    ∀ e ∈ af, afLookup af e.1 = e.2 := by
  induction af with
  | nil => simp
  | cons q rest ih =>
    match q with
    | (qk, ql) =>
      simp only [List.map_cons, List.nodup_cons] at hn
      intro e he
      rcases List.mem_cons.mp he with he | he
      · rw [he]
        simp [afLookup_cons]
      · rw [afLookup_cons]
        have : ¬ (qk = e.1) := by
          intro hx
          exact hn.1 (hx ▸ List.mem_map_of_mem (fun p => p.1) he)
        rw [if_neg this]
        exact ih hn.2 e he

theorem lookupAvail_amSet (am : List (String × Nat)) (v0 : String) (i0 : Nat)
    (v : String) :
    lookupAvail (amSet am v0 i0) v =
      if v = v0 then some i0 else lookupAvail am v := by
  induction am with
  | nil =>
    by_cases hp : v = v0
    · subst hp
      simp [amSet, lookupAvail]
    · have hq : ¬ (v0 = v) := fun h => hp h.symm
      simp [amSet, lookupAvail, List.find?, decide_eq_false hq, hp]
  | cons e rest ih =>
    match e with
    | (q, j) =>
      show lookupAvail (if q = v0 then (v0, i0) :: rest
        else (q, j) :: amSet rest v0 i0) v = _
      by_cases hq : q = v0
      · rw [if_pos hq]
        by_cases hp : v = v0
        · subst hp
          simp [lookupAvail, List.find?]
        · have h1 : ¬ (v0 = v) := fun h => hp h.symm
          have h2 : ¬ (q = v) := fun h => hp (h.symm.trans hq)
          simp only [lookupAvail, List.find?, decide_eq_false h1,
            decide_eq_false h2, if_neg hp]
      · rw [if_neg hq]
        by_cases hqp : q = v
        · have hp : ¬ (v = v0) := fun h => hq (hqp.trans h)
          simp only [lookupAvail, List.find?, decide_eq_true hqp, if_neg hp]
        · simp only [lookupAvail, List.find?, decide_eq_false hqp]
          simpa [lookupAvail] using ih

theorem amSet_mem {am : List (String × Nat)} {v0 : String} {i0 : Nat} :
    ∀ q ∈ amSet am v0 i0, q ∈ am ∨ q = (v0, i0) := by
  induction am with
  | nil =>
    intro q hq
    simp [amSet] at hq
    exact Or.inr hq
  | cons e rest ih =>
    match e with
    | (k, j) =>
      intro q hq
      have hun : amSet ((k, j) :: rest) v0 i0
          = if k = v0 then (v0, i0) :: rest
            else (k, j) :: amSet rest v0 i0 := rfl
      rw [hun] at hq
      by_cases hk : k = v0
      · rw [if_pos hk] at hq
        rcases List.mem_cons.mp hq with h | h
        · exact Or.inr h
        · exact Or.inl (List.mem_cons_of_mem _ h)
      · rw [if_neg hk] at hq
        rcases List.mem_cons.mp hq with h | h
        · exact Or.inl (h ▸ List.mem_cons_self _ _)
        · rcases ih q h with h' | h'
          · exact Or.inl (List.mem_cons_of_mem _ h')
          · exact Or.inr h'

theorem mem_dedupAux : ∀ (l seen : List String) (v : String),
    v ∈ dedupAux l seen ↔ (v ∈ l ∧ ¬ v ∈ seen) := by
  intro l
  induction l with
  | nil => simp [dedupAux]
  | cons w ws ih =>
    intro seen v
    show v ∈ (if w ∈ seen then dedupAux ws seen
      else w :: dedupAux ws (w :: seen)) ↔ _
    by_cases hw : w ∈ seen
    · rw [if_pos hw, ih]
      constructor
      · rintro ⟨h1, h2⟩
        exact ⟨List.mem_cons_of_mem _ h1, h2⟩
      · rintro ⟨h1, h2⟩
        rcases List.mem_cons.mp h1 with h | h
        · exact absurd (h ▸ hw) h2
        · exact ⟨h, h2⟩
    · rw [if_neg hw]
      constructor
      · intro h
        rcases List.mem_cons.mp h with h | h
        · exact ⟨h ▸ List.mem_cons_self _ _, h ▸ hw⟩
        · obtain ⟨h1, h2⟩ := (ih _ _).mp h
          refine ⟨List.mem_cons_of_mem _ h1, fun hx => h2 (List.mem_cons_of_mem _ hx)⟩
      · rintro ⟨h1, h2⟩
        rcases List.mem_cons.mp h1 with h | h
        · exact h ▸ List.mem_cons_self _ _
        · by_cases hvw : v = w
          · exact hvw ▸ List.mem_cons_self _ _
          · exact List.mem_cons_of_mem _ ((ih _ _).mpr
              ⟨h, by simp [hvw, h2]⟩)

theorem mem_dedupVars {v : String} {l : List String} :
    v ∈ dedupVars l ↔ v ∈ l := by
  rw [dedupVars, mem_dedupAux]
  simp

theorem declVarsP_enumFrom : ∀ (l : List FieldDesc) (n : Nat),
    declVarsP (List.enumFrom n l) = declVars l := by
  intro l
  induction l with
  | nil => intro n; rfl
  | cons f rest ih =>
    intro n
    rw [List.enumFrom_cons]
    show declVarsP ((n, f) :: List.enumFrom (n + 1) rest) = _
    unfold declVarsP declVars
    rw [List.filterMap_cons, List.filterMap_cons]
    have := ih (n + 1)
    unfold declVarsP declVars at this
    rw [this]

theorem declVarsP_enum (fields : List FieldDesc) :
    declVarsP fields.enum = declVars fields :=
  declVarsP_enumFrom fields 0

theorem pass1_err : ∀ (ef : List (Nat × FieldDesc))
    (af : List (String × List String)) (am : List (String × Nat)) (hi : Bool),
    (∀ p ∈ ef, p.2.configTag ≠ "" →
      ∃ v, parseConfigTag p.2.configTag = .ok v) →
    (∃ p ∈ ef, p.2.configTag ≠ "" ∧ p.2.exported = false) →
    ∃ e, analyzePass1 ef af am hi = .error (.accessibility e) := by
  intro ef
  induction ef with
  | nil =>
    intro af am hi _ hex
    obtain ⟨p, hp, -⟩ := hex
    cases hp
  | cons q rest ih =>
    intro af am hi hparse hex
    match q with
    | (i, f) =>
      simp only [analyzePass1]
      by_cases hct : f.configTag = ""
      · rw [if_pos hct]
        obtain ⟨p, hp, hp1, hp2⟩ := hex
        rcases List.mem_cons.mp hp with h | h
        · exact absurd (by rw [h] at hp1; exact hp1) (by simp [hct])
        · exact ih af am hi
            (fun p hp hne => hparse p (List.mem_cons_of_mem _ hp) hne)
            ⟨p, h, hp1, hp2⟩
      · obtain ⟨v, hv⟩ := hparse (i, f) (by simp) hct
        rw [if_neg hct]
        simp only [hv]
        by_cases hexp : f.exported = false
        · rw [if_pos (by simp [hexp])]
          exact ⟨_, rfl⟩
        · have hexp' : f.exported = true := by
            cases hx : f.exported with
            | true => rfl
            | false => exact absurd hx hexp
          rw [if_neg (by simp [hexp'])]
          obtain ⟨p, hp, hp1, hp2⟩ := hex
          rcases List.mem_cons.mp hp with h | h
          · exact absurd (by rw [h] at hp2; exact hp2) (by simp [hexp'])
          · exact ih _ _ _
              (fun p hp hne => hparse p (List.mem_cons_of_mem _ hp) hne)
              ⟨p, h, hp1, hp2⟩

theorem pass1_ok : ∀ (ef : List (Nat × FieldDesc))
    (af : List (String × List String)) (am : List (String × Nat)) (hi : Bool),
    (∀ p ∈ ef, p.2.configTag ≠ "" →
      ∃ v, parseConfigTag p.2.configTag = .ok v) →
    (¬ ∃ p ∈ ef, p.2.configTag ≠ "" ∧ p.2.exported = false) →
    ∃ af' am' hi', analyzePass1 ef af am hi = .ok (af', am', hi') ∧
      (∀ v, (afLookup af' v).length
        = (afLookup af v).length + (declVarsP ef).count v) ∧
      ((af.map fun p => p.1).Nodup → (af'.map fun p => p.1).Nodup) ∧
      (∀ v, lookupAvail am' v = none ↔
        (lookupAvail am v = none ∧ ¬ v ∈ declVarsP ef)) ∧
      (∀ q ∈ am', q ∈ am ∨ q.2 ∈ ef.map fun p => p.1) := by
  intro ef
  induction ef with
  | nil =>
    intro af am hi _ _
    refine ⟨af, am, hi, rfl, ?_, fun h => h, ?_, ?_⟩
    · intro v
      simp [declVarsP]
    · intro v
      simp [declVarsP]
    · intro q hq
      exact Or.inl hq
  | cons q rest ih =>
    intro af am hi hparse hnex
    match q with
    | (i, f) =>
      simp only [analyzePass1]
      by_cases hct : f.configTag = ""
      · rw [if_pos hct]
        obtain ⟨af', am', hi', hrun, hc1, hc2, hc3, hc4⟩ :=
          ih af am hi (fun p hp => hparse p (List.mem_cons_of_mem _ hp))
            (fun hx => hnex (by
              obtain ⟨p, hp, h1, h2⟩ := hx
              exact ⟨p, List.mem_cons_of_mem _ hp, h1, h2⟩))
        have hdv : declVarsP ((i, f) :: rest) = declVarsP rest := by
          unfold declVarsP
          rw [List.filterMap_cons]
          simp [hct]
        refine ⟨af', am', hi', hrun, ?_, hc2, ?_, ?_⟩
        · intro v
          rw [hdv]
          exact hc1 v
        · intro v
          rw [hdv]
          exact hc3 v
        · intro q hq
          rcases hc4 q hq with h | h
          · exact Or.inl h
          · exact Or.inr (List.mem_cons_of_mem _ h)
      · obtain ⟨v, hv⟩ := hparse (i, f) (by simp) hct
        have hexp : f.exported = true := by
          cases hx : f.exported with
          | true => rfl
          | false => exact absurd ⟨(i, f), by simp, hct, hx⟩ hnex
        rw [if_neg hct]
        simp only [hv]
        rw [if_neg (by simp [hexp])]
        obtain ⟨af', am', hi', hrun, hc1, hc2, hc3, hc4⟩ :=
          ih (afAppend af v f.name) (amSet am v i) true
            (fun p hp => hparse p (List.mem_cons_of_mem _ hp))
            (fun hx => hnex (by
              obtain ⟨p, hp, h1, h2⟩ := hx
              exact ⟨p, List.mem_cons_of_mem _ hp, h1, h2⟩))
        have hdv : declVarsP ((i, f) :: rest) = v :: declVarsP rest := by
          unfold declVarsP
          rw [List.filterMap_cons]
          simp [hct, hv]
        refine ⟨af', am', hi', hrun, ?_, ?_, ?_, ?_⟩
        · intro w
          rw [hc1 w, afLookup_append, hdv, List.count_cons]
          by_cases hw : w = v
          · rw [if_pos hw]
            simp [hw]
            omega
          · rw [if_neg hw]
            simp [hw]
            exact fun h => hw h.symm
        · intro hnd
          exact hc2 (afAppend_keys_nodup v f.name hnd)
        · intro w
          rw [hc3 w, lookupAvail_amSet, hdv]
          by_cases hw : w = v
          · rw [if_pos hw]
            simp [hw]
          · rw [if_neg hw]
            simp [hw]
        · intro q hq
          rcases hc4 q hq with h | h
          · rcases amSet_mem q h with h' | h'
            · exact Or.inl h'
            · refine Or.inr ?_
              rw [h']
              exact List.mem_cons_self _ _
          · exact Or.inr (List.mem_cons_of_mem _ h)

theorem findDup_isSome : ∀ af : List (String × List String),
    (∃ e ∈ af, e.2.length > 1) → (findDup af).isSome := by
  intro af
  induction af with
  | nil =>
    intro hex
    obtain ⟨e, he, -⟩ := hex
    cases he
  | cons q rest ih =>
    intro hex
    match q with
    | (v, fs) =>
      show ((if fs.length > 1 then some (v, fs) else findDup rest)).isSome
      by_cases hl : fs.length > 1
      · rw [if_pos hl]
        rfl
      · rw [if_neg hl]
        obtain ⟨e, he, hel⟩ := hex
        rcases List.mem_cons.mp he with h | h
        · exact absurd (by rw [h] at hel; exact hel) hl
        · exact ih ⟨e, h, hel⟩

theorem findDup_eq_none : ∀ af : List (String × List String),
    (∀ e ∈ af, ¬ e.2.length > 1) → findDup af = none := by
  intro af
  induction af with
  | nil => intro _; rfl
  | cons q rest ih =>
    intro hall
    match q with
    | (v, fs) =>
      show (if fs.length > 1 then some (v, fs) else findDup rest) = none
      rw [if_neg (hall (v, fs) (by simp))]
      exact ih fun e he => hall e (List.mem_cons_of_mem _ he)

theorem afLookup_entry {af : List (String × List String)} {v : String}
    (h : (afLookup af v).length > 1) : ∃ e ∈ af, e.2.length > 1 := by
  unfold afLookup at h
  match hf : af.find? fun p => p.1 = v with
  | none =>
    rw [hf] at h
    simp at h
  | some p =>
    rw [hf] at h
    exact ⟨p, List.mem_of_find?_eq_some hf, h⟩

theorem pass2_err (am : List (String × Nat)) :
    ∀ (ef : List (Nat × FieldDesc)) (deps : List (Nat × List String))
    (hi : Bool),
    (∃ p ∈ ef, ∃ v ∈ findVariableReferences p.2.fullTag,
      lookupAvail am v = none) →
    ∃ e, analyzePass2 am ef deps hi = .error (.undefinedVar e) := by
  intro ef
  induction ef with
  | nil =>
    intro deps hi hex
    obtain ⟨p, hp, -⟩ := hex
    cases hp
  | cons q rest ih =>
    intro deps hi hex
    match q with
    | (i, f) =>
      simp only [analyzePass2]
      by_cases hemp : (dedupVars (findVariableReferences f.fullTag)).isEmpty
      · rw [if_pos hemp]
        obtain ⟨p, hp, v, hv, hvn⟩ := hex
        rcases List.mem_cons.mp hp with h | h
        · exfalso
          have hvd : v ∈ dedupVars (findVariableReferences f.fullTag) := by
            rw [mem_dedupVars]
            rw [h] at hv
            exact hv
          rw [List.isEmpty_iff] at hemp
          rw [hemp] at hvd
          cases hvd
        · exact ih deps hi ⟨p, h, v, hv, hvn⟩
      · rw [if_neg hemp]
        match hfind : (dedupVars (findVariableReferences f.fullTag)).find?
            fun v => (lookupAvail am v).isNone with
        | some v => exact ⟨_, rfl⟩
        | none =>
          obtain ⟨p, hp, v, hv, hvn⟩ := hex
          rcases List.mem_cons.mp hp with h | h
          · exfalso
            have hvd : v ∈ dedupVars (findVariableReferences f.fullTag) := by
              rw [mem_dedupVars]
              rw [h] at hv
              exact hv
            have := List.find?_eq_none.mp hfind v hvd
            simp [hvn] at this
          · exact ih _ _ ⟨p, h, v, hv, hvn⟩

theorem pass2_ok (am : List (String × Nat)) :
    ∀ (ef : List (Nat × FieldDesc)) (deps : List (Nat × List String))
    (hi : Bool),
    (¬ ∃ p ∈ ef, ∃ v ∈ findVariableReferences p.2.fullTag,
      lookupAvail am v = none) →
    ∃ deps' hi', analyzePass2 am ef deps hi = .ok (deps ++ deps', hi') ∧
      (∀ e ∈ deps', e.1 ∈ ef.map fun p => p.1) ∧
      (∀ e ∈ deps', ∀ v ∈ e.2, (lookupAvail am v).isSome) := by
  intro ef
  induction ef with
  | nil =>
    intro deps hi _
    exact ⟨[], hi, by simp [analyzePass2], by simp, by simp⟩
  | cons q rest ih =>
    intro deps hi hnex
    match q with
    | (i, f) =>
      simp only [analyzePass2]
      by_cases hemp : (dedupVars (findVariableReferences f.fullTag)).isEmpty
      · rw [if_pos hemp]
        obtain ⟨deps', hi', hrun, hd1, hd2⟩ := ih deps hi (fun hx => hnex (by
          obtain ⟨p, hp, hv⟩ := hx
          exact ⟨p, List.mem_cons_of_mem _ hp, hv⟩))
        exact ⟨deps', hi', hrun,
          fun e he => List.mem_cons_of_mem _ (hd1 e he), hd2⟩
      · rw [if_neg hemp]
        match hfind : (dedupVars (findVariableReferences f.fullTag)).find?
            fun v => (lookupAvail am v).isNone with
        | some v =>
          exfalso
          have hvm := List.mem_of_find?_eq_some hfind
          have hvp := List.find?_some hfind
          simp only [decide_eq_true_eq] at hvp
          refine hnex ⟨(i, f), by simp, v, ?_, ?_⟩
          · exact mem_dedupVars.mp hvm
          · cases hx : lookupAvail am v with
            | none => rfl
            | some j =>
              rw [hx] at hvp
              cases hvp
        | none =>
          obtain ⟨deps', hi', hrun, hd1, hd2⟩ :=
            ih (deps ++ [(i, dedupVars (findVariableReferences f.fullTag))])
              true (fun hx => hnex (by
                obtain ⟨p, hp, hv⟩ := hx
                exact ⟨p, List.mem_cons_of_mem _ hp, hv⟩))
          refine ⟨(i, dedupVars (findVariableReferences f.fullTag)) :: deps',
            hi', ?_, ?_, ?_⟩
          · rw [hrun, List.append_assoc]
            rfl
          · intro e he
            rcases List.mem_cons.mp he with h | h
            · rw [h]
              exact List.mem_cons_self _ _
            · exact List.mem_cons_of_mem _ (hd1 e h)
          · intro e he v hv
            rcases List.mem_cons.mp he with h | h
            · have hnone := List.find?_eq_none.mp hfind v (by
                rw [h] at hv
                exact hv)
              simp only [decide_eq_true_eq] at hnone
              cases hx : lookupAvail am v with
              | none => exact absurd (by rw [hx]; rfl) hnone
              | some j => rfl
            · exact hd2 e h v hv

theorem addVars_some (avail : List (String × Nat))
    (names : List (Nat × String)) : ∀ (vs : List String)
    (g : DependencyGraph) (fi : Nat),
    (∀ v ∈ vs, (lookupAvail avail v).isSome) →
    ∃ g', addVars avail names g fi vs = .ok g' := by
  intro vs
  induction vs with
  | nil =>
    intro g fi _
    exact ⟨g, rfl⟩
  | cons v rest ih =>
    intro g fi hall
    have hs := hall v (by simp)
    match hx : lookupAvail avail v with
    | none =>
      rw [hx] at hs
      cases hs
    | some p =>
      simp only [addVars, hx]
      exact ih _ fi fun w hw => hall w (List.mem_cons_of_mem _ hw)

theorem addDeps_some (avail : List (String × Nat))
    (names : List (Nat × String)) : ∀ (deps : List (Nat × List String))
    (g : DependencyGraph),
    (∀ e ∈ deps, ∀ v ∈ e.2, (lookupAvail avail v).isSome) →
    ∃ g', addDeps avail names g deps = .ok g' := by
  intro deps
  induction deps with
  | nil =>
    intro g _
    exact ⟨g, rfl⟩
  | cons d rest ih =>
    match d with
    | (fi, vars) =>
      intro g hall
      obtain ⟨g1, hg1⟩ := addVars_some avail names vars g fi
        (fun v hv => hall (fi, vars) (by simp) v hv)
      simp only [addDeps, hg1]
      exact ih g1 fun e he v hv => hall e (List.mem_cons_of_mem _ he) v hv

theorem build_some {deps : List (Nat × List String)}
    {avail : List (String × Nat)} {names : List (Nat × String)}
    (hall : ∀ e ∈ deps, ∀ v ∈ e.2, (lookupAvail avail v).isSome) :
    ∃ g, buildDependencyGraph deps avail names = .ok g := by
  unfold buildDependencyGraph
  exact addDeps_some avail names deps _ hall

theorem edgesAppend_ne : ∀ (es : List (Nat × List Nat)) (p k : Nat),
    (∀ e ∈ es, e.2 ≠ []) → ∀ e ∈ edgesAppend es p k, e.2 ≠ [] := by
  intro es
  induction es with
  | nil =>
    intro p k _ e he
    simp [edgesAppend] at he
    rw [he]
    simp
  | cons q rest ih =>
    match q with
    | (q1, l) =>
      intro p k hall e he
      rw [edgesAppend_cons] at he
      by_cases hq : q1 = p
      · rw [if_pos hq] at he
        rcases List.mem_cons.mp he with h | h
        · rw [h]
          simp
        · exact hall e (List.mem_cons_of_mem _ h)
      · rw [if_neg hq] at he
        rcases List.mem_cons.mp he with h | h
        · rw [h]
          exact hall (q1, l) (by simp)
        · exact ih p k (fun e' he' => hall e' (List.mem_cons_of_mem _ he')) e h

theorem addVars_ne (avail : List (String × Nat))
    (names : List (Nat × String)) : ∀ (vs : List String)
    (g : DependencyGraph) (fi : Nat) (g' : DependencyGraph),
    addVars avail names g fi vs = .ok g' →
    (∀ e ∈ g.edges, e.2 ≠ []) → ∀ e ∈ g'.edges, e.2 ≠ [] := by
  intro vs
  induction vs with
  | nil =>
    intro g fi g' hrun hne
    injection hrun with h
    rw [← h]
    exact hne
  | cons v rest ih =>
    intro g fi g' hrun hne
    match hx : lookupAvail avail v with
    | none =>
      simp only [addVars, hx] at hrun
      cases hrun
    | some p =>
      simp only [addVars, hx] at hrun
      exact ih _ fi g' hrun (edgesAppend_ne g.edges p fi hne)

theorem addDeps_ne (avail : List (String × Nat))
    (names : List (Nat × String)) : ∀ (deps : List (Nat × List String))
    (g : DependencyGraph) (g' : DependencyGraph),
    addDeps avail names g deps = .ok g' →
    (∀ e ∈ g.edges, e.2 ≠ []) → ∀ e ∈ g'.edges, e.2 ≠ [] := by
  intro deps
  induction deps with
  | nil =>
    intro g g' hrun hne
    injection hrun with h
    rw [← h]
    exact hne
  | cons d rest ih =>
    match d with
    | (fi, vars) =>
      intro g g' hrun hne
      match hx : addVars avail names g fi vars with
      | .error e =>
        simp only [addDeps, hx] at hrun
        cases hrun
      | .ok g1 =>
        simp only [addDeps, hx] at hrun
        exact ih g1 g' hrun (addVars_ne avail names vars g fi g1 hx hne)

theorem build_ne {deps : List (Nat × List String)}
    {avail : List (String × Nat)} {names : List (Nat × String)}
    {g : DependencyGraph}
    (hb : buildDependencyGraph deps avail names = .ok g) :
    ∀ e ∈ g.edges, e.2 ≠ [] := by
  unfold buildDependencyGraph at hb
  exact addDeps_ne avail names deps _ g hb (by simp)

theorem detectCycle_none_acyclic (g : DependencyGraph) (hwf : graphWF g)
    (hnone : detectCycle g = none) : ¬ hasCycle g := by
  rintro ⟨n, hn⟩
  have hnk : n ∈ nodeKeys g := by
    obtain ⟨w, hw, -⟩ := (Relation.TransGen.head'_iff).mp hn
    exact (hasEdge_mem hwf hw).1
  exact loop_none g hwf (dfsFuel g) (nodeKeys g) (fun _ => 0)
    (fun x => Nat.zero_le 2) (fun x y hx => by simp at hx)
    (fun x => by simp) (fun k hk => hk) (weight_initial g) hnone n hnk
    rfl hn

theorem topoSort_ok (g : DependencyGraph)
    (hknd : (nodeKeys g).Nodup)
    (hednd : (g.edges.map fun e => e.1).Nodup)
    (hendp : ∀ e ∈ g.edges, ∀ b ∈ e.2, e.1 ∈ nodeKeys g ∧ b ∈ nodeKeys g)
    (hdegt : ∀ k, inDegreeOf g k = inEdgeTotal g.edges k)
    (hacyc : ¬ hasCycle g) (hnone : detectCycle g = none) :
    ∃ stages, topologicalSort g = .ok stages := by
  have h1 : ∀ k, (fun k => (inDegreeOf g k : Int)) k
      = remInDeg g (fun _ => false) k := by
    intro k
    show ((inDegreeOf g k : Nat) : Int) = _
    rw [hdegt k]
    unfold inEdgeTotal remInDeg
    rw [Nat.cast_list_sum, List.map_map]
    congr 1
    rw [show (g.edges.filter fun e => !(fun _ : Nat => false) e.1)
      = g.edges from by simp]
    rfl
  have h2 : ∀ k, (fun _ : Nat => false) k = true
      ↔ k ∈ ([] : List (List Nat)).flatten := by
    simp
  have h3 : ([] : List (List Nat)).flatten.Nodup := by simp
  have h4 : ∀ k ∈ ([] : List (List Nat)).flatten, k ∈ nodeKeys g := by simp
  have h5 : ∀ s t, hasEdge g s t → ∀ (i : Nat) (ti : List Nat),
      ([] : List (List Nat))[i]? = some ti → t ∈ ti →
      ∃ (j : Nat) (tj : List Nat), j < i ∧
        ([] : List (List Nat))[j]? = some tj ∧ s ∈ tj := by
    intro s t _ i ti hti _
    simp at hti
  have h6 : g.nodes.length < (g.nodes.length + 1)
      + processedCount (nodeKeys g) (fun _ => false) := by
    omega
  obtain ⟨stages, hrun, -, -, -, -⟩ :=
    kahn_ok g hknd hednd hendp hacyc (g.nodes.length + 1) (fun _ => false)
      (fun k => (inDegreeOf g k : Int)) [] h1 h2 h3 h4 h5 h6
  refine ⟨stages, ?_⟩
  simp only [topologicalSort, hnone, hrun]

theorem mem_enum_snd {α : Type} {p : Nat × α} {l : List α}
    (hp : p ∈ l.enum) : p.2 ∈ l := by
  have he : l.enum.map Prod.snd = l := List.enumFrom_map_snd 0 l
  rw [← he]
  exact List.mem_map_of_mem Prod.snd hp

theorem exists_enum {α : Type} (P : α → Prop) (l : List α) :
    (∃ p ∈ l.enum, P p.2) ↔ ∃ f ∈ l, P f := by
  constructor
  · rintro ⟨p, hp, hP⟩
    exact ⟨p.2, mem_enum_snd hp, hP⟩
  · rintro ⟨f, hf, hP⟩
    have he : l.enum.map Prod.snd = l := List.enumFrom_map_snd 0 l
    rw [← he] at hf
    obtain ⟨p, hp, hpf⟩ := List.mem_map.mp hf
    exact ⟨p, hp, hpf ▸ hP⟩

/-- C4: with every present `config` tag well-formed, `Analyze`'s failure
obeys the fixed precedence — a declaration on an unexported field is
reported first; otherwise a duplicate declaration; otherwise a dangling
reference; otherwise past those checks the outcome is a cyclic-dependency
error or success, so a structural-sort error is never reached ahead of the
cycle check. -/
theorem C4_analyze_error_precedence (fields : List FieldDesc)
    (hparse : ∀ f ∈ fields, f.configTag ≠ "" →
      ∃ v, parseConfigTag f.configTag = .ok v) :
    ((∃ f ∈ fields, f.configTag ≠ "" ∧ f.exported = false) →
      ∃ e, analyze fields = .error (.accessibility e)) ∧
    (¬ (∃ f ∈ fields, f.configTag ≠ "" ∧ f.exported = false) →
      ¬ (declVars fields).Nodup →
      ∃ v fs, analyze fields = .error (.duplicate v fs)) ∧
    (¬ (∃ f ∈ fields, f.configTag ≠ "" ∧ f.exported = false) →
      (declVars fields).Nodup →
      (∃ f ∈ fields, ∃ v ∈ findVariableReferences f.fullTag,
        ¬ v ∈ declVars fields) →
      ∃ e, analyze fields = .error (.undefinedVar e)) ∧
    (¬ (∃ f ∈ fields, f.configTag ≠ "" ∧ f.exported = false) →
      (declVars fields).Nodup →
      ¬ (∃ f ∈ fields, ∃ v ∈ findVariableReferences f.fullTag,
        ¬ v ∈ declVars fields) →
      (∃ c, analyze fields = .error (.cyclic c)) ∨
        ∃ hi stages, analyze fields = .ok (hi, stages)) := by
  have hparseE : ∀ p ∈ fields.enum, p.2.configTag ≠ "" →
      ∃ v, parseConfigTag p.2.configTag = .ok v :=
    fun p hp => hparse p.2 (mem_enum_snd hp)
  refine ⟨?_, ?_, ?_, ?_⟩
  · intro hA
    have hAef : ∃ p ∈ fields.enum, p.2.configTag ≠ "" ∧ p.2.exported = false :=
      (exists_enum (fun f => f.configTag ≠ "" ∧ f.exported = false)
        fields).mpr hA
    obtain ⟨e, he⟩ := pass1_err fields.enum [] [] false hparseE hAef
    refine ⟨e, ?_⟩
    simp only [analyze, he]
  · intro hnA hD
    have hnAef : ¬ ∃ p ∈ fields.enum,
        p.2.configTag ≠ "" ∧ p.2.exported = false :=
      fun hx => hnA ((exists_enum (fun f =>
        f.configTag ≠ "" ∧ f.exported = false) fields).mp hx)
    obtain ⟨af', am', hi1, hrun1, hcnt, hnd, ham, hamm⟩ :=
      pass1_ok fields.enum [] [] false hparseE hnAef
    have hlong : ∃ w, (afLookup af' w).length > 1 := by
      rw [List.nodup_iff_count_le_one] at hD
      push_neg at hD
      obtain ⟨w, hw⟩ := hD
      refine ⟨w, ?_⟩
      rw [hcnt w, declVarsP_enum]
      have h0 : afLookup [] w = [] := rfl
      rw [h0]
      simpa using hw
    obtain ⟨w, hw⟩ := hlong
    obtain ⟨e, he, hel⟩ := afLookup_entry hw
    have hds := findDup_isSome af' ⟨e, he, hel⟩
    match hfd : findDup af' with
    | none =>
      rw [hfd] at hds
      cases hds
    | some (v, fs) =>
      exact ⟨v, fs, by simp only [analyze, hrun1, hfd]⟩
  · intro hnA hD hU
    have hnAef : ¬ ∃ p ∈ fields.enum,
        p.2.configTag ≠ "" ∧ p.2.exported = false :=
      fun hx => hnA ((exists_enum (fun f =>
        f.configTag ≠ "" ∧ f.exported = false) fields).mp hx)
    obtain ⟨af', am', hi1, hrun1, hcnt, hnd, ham, hamm⟩ :=
      pass1_ok fields.enum [] [] false hparseE hnAef
    have hfd : findDup af' = none := by
      apply findDup_eq_none
      intro e he
      have hself := afLookup_self (hnd (by simp)) e he
      rw [List.nodup_iff_count_le_one] at hD
      intro hgt
      rw [← hself, hcnt e.1, declVarsP_enum] at hgt
      have h0 : afLookup [] e.1 = [] := rfl
      rw [h0] at hgt
      have := hD e.1
      simp at hgt
      omega
    have hdang : ∃ p ∈ fields.enum, ∃ v ∈ findVariableReferences p.2.fullTag,
        lookupAvail am' v = none := by
      rw [exists_enum (fun f => ∃ v ∈ findVariableReferences f.fullTag,
        lookupAvail am' v = none) fields]
      obtain ⟨f, hf, v, hv, hvd⟩ := hU
      refine ⟨f, hf, v, hv, ?_⟩
      rw [ham v, declVarsP_enum]
      exact ⟨rfl, hvd⟩
    obtain ⟨e, he⟩ := pass2_err am' fields.enum [] hi1 hdang
    exact ⟨e, by simp only [analyze, hrun1, hfd, he]⟩
  · intro hnA hD hnU
    have hnAef : ¬ ∃ p ∈ fields.enum,
        p.2.configTag ≠ "" ∧ p.2.exported = false :=
      fun hx => hnA ((exists_enum (fun f =>
        f.configTag ≠ "" ∧ f.exported = false) fields).mp hx)
    obtain ⟨af', am', hi1, hrun1, hcnt, hnd, ham, hamm⟩ :=
      pass1_ok fields.enum [] [] false hparseE hnAef
    have hfd : findDup af' = none := by
      apply findDup_eq_none
      intro e he
      have hself := afLookup_self (hnd (by simp)) e he
      rw [List.nodup_iff_count_le_one] at hD
      intro hgt
      rw [← hself, hcnt e.1, declVarsP_enum] at hgt
      have h0 : afLookup [] e.1 = [] := rfl
      rw [h0] at hgt
      have := hD e.1
      simp at hgt
      omega
    have hnd2 : ¬ ∃ p ∈ fields.enum,
        ∃ v ∈ findVariableReferences p.2.fullTag,
        lookupAvail am' v = none := by
      intro hx
      obtain ⟨p, hp, v, hv, hvn⟩ := hx
      refine hnU ⟨p.2, mem_enum_snd hp, v, hv, ?_⟩
      rw [ham v, declVarsP_enum] at hvn
      exact hvn.2
    obtain ⟨deps', hi', hrun2, hdk, hdl⟩ :=
      pass2_ok am' fields.enum [] hi1 hnd2
    simp only [List.nil_append] at hrun2
    cases hhi : hi' with
    | false =>
      refine Or.inr ⟨false, [], ?_⟩
      rw [hhi] at hrun2
      simp only [analyze, hrun1, hfd, hrun2, Bool.not_false, if_true]
    | true =>
      rw [hhi] at hrun2
      obtain ⟨g, hg⟩ := @build_some deps' am'
        (fields.enum.map fun p => (p.1, p.2.name)) hdl
      have hnamesk : ((fields.enum.map fun p => (p.1, p.2.name)).map
          fun p => p.1) = fields.enum.map fun p => p.1 := by
        rw [List.map_map]
        rfl
      have hf' : ∀ e ∈ deps', e.1 ∈
          (fields.enum.map fun p => (p.1, p.2.name)).map fun p => p.1 := by
        intro e he
        rw [hnamesk]
        exact hdk e he
      have havail' : ∀ q ∈ am', q.2 ∈
          (fields.enum.map fun p => (p.1, p.2.name)).map fun p => p.1 := by
        intro q hq
        rw [hnamesk]
        rcases hamm q hq with h | h
        · cases h
        · exact h
      obtain ⟨hkeys, hindeg, hintot, hcount, hednd⟩ := build_ok hg hf'
      have hknd : (nodeKeys g).Nodup := by
        rw [hkeys, hnamesk]
        exact List.nodup_enum_map_fst fields
      have hendp := build_endpoints hg hf' havail'
      match hdc : detectCycle g with
      | some c =>
        refine Or.inl ⟨c, ?_⟩
        simp [analyze, hrun1, hfd, hrun2, hg, hdc]
      | none =>
        have hwf : graphWF g := by
          refine ⟨hknd, ?_⟩
          intro e he
          have hne := build_ne hg e he
          obtain ⟨b, hb⟩ := List.exists_mem_of_ne_nil _ hne
          exact ⟨(hendp e he b hb).1, fun b' hb' => (hendp e he b' hb').2⟩
        have hacyc := detectCycle_none_acyclic g hwf hdc
        obtain ⟨stages, hts⟩ := topoSort_ok g hknd hednd hendp
          (fun k => (hindeg k).trans (hintot k).symm) hacyc hdc
        refine Or.inr ⟨true, stages, ?_⟩
        simp [analyze, hrun1, hfd, hrun2, hg, hdc, hts]

/-- Witness for C4: a single unexported field `env` declaring `ENV` makes
`Analyze` fail with the accessibility error, by the first conjunct of the
precedence theorem. -/
theorem C4_witness :
    ∃ e, analyze [⟨"env", false, "availableAs=ENV", ""⟩]
      = .error (.accessibility e) :=
  (C4_analyze_error_precedence [⟨"env", false, "availableAs=ENV", ""⟩]
    (by
      intro f hf hne
      rw [show f = (⟨"env", false, "availableAs=ENV", ""⟩ : FieldDesc) from
        by simpa using hf]
      exact ⟨"ENV", by rfl⟩)).1
    ⟨⟨"env", false, "availableAs=ENV", ""⟩, by simp, by simp, rfl⟩

/-! ## `loadWithInterpolation` (towards C5) -/

theorem foldl_stageStep_error {σ : Type} (numFields : Nat)
    (origTags names : Nat → String) (fieldVal : σ → Nat → GoValue)
    (loaders : List (Option (σ → Except String σ)))
    (shortCircuit : Bool) (populated : σ → Bool)
    (l : List (Nat × List Nat)) (e : LoadErr) :
    l.foldl (stageStepSpec numFields origTags names fieldVal loaders
      shortCircuit populated) (.error e) = .error e := by
  induction l with
  | nil => rfl
  | cons p rest ih =>
    rw [List.foldl_cons]
    exact ih

theorem loadWI_enumFrom {σ : Type} (numFields : Nat)
    (origTags names : Nat → String) (fieldVal : σ → Nat → GoValue)
    (loaders : List (Option (σ → Except String σ)))
    (shortCircuit : Bool) (populated : σ → Bool) :
    ∀ (stages : List (List Nat)) (n : Nat) (c : σ) (st : EngineState),
    loadWithInterpolation numFields origTags names fieldVal loaders
        shortCircuit populated stages n c st
      = (List.enumFrom n stages).foldl
          (stageStepSpec numFields origTags names fieldVal loaders
            shortCircuit populated) (.ok (c, st)) := by
  intro stages
  induction stages with
  | nil =>
    intro n c st
    rfl
  | cons sf rest ih =>
    intro n c st
    rw [List.enumFrom_cons, List.foldl_cons]
    cases hit : interpolateTags numFields origTags names
        st.interpolationContext sf with
    | error e1 =>
      match e1 with
      | .inl i =>
        simp only [loadWithInterpolation, stageStepSpec, hit]
        rw [foldl_stageStep_error]
      | .inr e =>
        simp only [loadWithInterpolation, stageStepSpec, hit]
        rw [foldl_stageStep_error]
    | ok u =>
      cases hls : loadStage shortCircuit populated loaders 0 c with
      | error e2 =>
        match e2 with
        | .inl i =>
          simp only [loadWithInterpolation, stageStepSpec, hit, hls]
          rw [foldl_stageStep_error]
        | .inr im =>
          simp only [loadWithInterpolation, stageStepSpec, hit, hls]
          rw [foldl_stageStep_error]
      | ok c' =>
        cases hup : updateContextForStage fieldVal c' st sf with
        | error e =>
          simp only [loadWithInterpolation, stageStepSpec, hit, hls, hup]
          rw [foldl_stageStep_error]
        | ok st' =>
          simp only [loadWithInterpolation, stageStepSpec, hit, hls, hup]
          exact ih (n + 1) c' st'

/-- C5: on the interpolation path the staged loader is exactly the in-order
fold of the per-stage step over the numbered stages: each stage first
interpolates its fields against the current context, then runs every loader
once over the whole record in list order (nil check, then the short-circuit
check, before each loader), then updates the context for every field of the
stage; the first error of any phase is wrapped with its stage number and
passes through all remaining stages unchanged, so they have no effect. -/
theorem C5_loadWithInterpolation_staged {σ : Type} (numFields : Nat)
    (origTags names : Nat → String) (fieldVal : σ → Nat → GoValue)
    (loaders : List (Option (σ → Except String σ)))
    (shortCircuit : Bool) (populated : σ → Bool)
    (stages : List (List Nat)) (c : σ) (st : EngineState) :
    loadWithInterpolation numFields origTags names fieldVal loaders
        shortCircuit populated stages 0 c st
      = loadStagedSpec numFields origTags names fieldVal loaders shortCircuit
          populated stages c st :=
  loadWI_enumFrom numFields origTags names fieldVal loaders shortCircuit
    populated stages 0 c st
